import Mathlib

/-!
# git-simulator: the repository state machine

A shallow embedding of `commands/commands.go` and of the part of
`workdir/workdir.go` it calls, followed by theorems about staging, commit,
status, reference resolution and checkout.

Modelling conventions.

* A Go `map[string]T` is a finite map with distinct keys (`GoMap T`); reading a
  missing key yields the zero value, written `getD`.  Go leaves the iteration
  order of a map unspecified; loops over a map run over `entries` in the order
  the model happens to hold them.
* The directory behind `WorkDir.Path` is represented by the non-directory
  entries below it, keyed by the relative path that `filepath.Rel` reports
  during a walk.  A name handed to `filepath.Join(root, name)` addresses the
  entry with that key.  Directories are not represented: the code never lists,
  reads, removes or writes one, and a missing parent directory shows up as a
  failing write.  The tree walk itself is taken to succeed, so a walk callback
  only fails through the file operation it performs.
* `os.Open`/`os.ReadFile` fail on a missing entry and on an entry that cannot
  be read; `os.Remove` and `os.WriteFile` fail where the environment says so.
* SHA-1 is a parameter `H : String → String` (content to hex digest).
* Go `int` is 64 bit; arithmetic on it wraps (`wrapInt`).
* A `panic` is the result `none`.
* The repository holds a pointer to its working directory, so files can change
  between two operations; such a change is `VC.withTree`.
-/

namespace GitSim

/-! ## Data model -/

/-- Go map with string keys. -/
abbrev GoMap (β : Type) := AList (fun _ : String => β)

/-- Errors returned by the operations. -/
inductive Err where
  /-- `strconv.Atoi`: not a decimal integer. -/
  | atoiSyntaxErr
  /-- `strconv.Atoi`: value does not fit an `int`. -/
  | atoiRangeErr
  /-- "commit reference out of range". -/
  | refOutOfRange
  /-- "invalid commit reference". -/
  | invalidRef
  /-- "invalid commit index". -/
  | invalidIndex
  /-- Error of `os.Remove`, as returned by `clearCurrentState`. -/
  | removeFailed
  /-- "error clearing current state". -/
  | clearFailed
  /-- "error writing file". -/
  | writeFailed
  deriving DecidableEq, Repr

/-- A non-directory entry of the working tree. -/
structure Node where
  content : String
  readable : Bool
  deriving DecidableEq, Repr

/-- The directory behind `WorkDir.Path` as the operations see it. -/
structure WorkDir where
  /-- Non-directory entries below the root, by relative path. -/
  files : GoMap Node
  /-- Whether `os.Remove` fails on the entry with this relative path. -/
  failRemove : String → Bool
  /-- Whether `os.WriteFile` fails on this relative path. -/
  failWrite : String → Bool
  /-- Content obtained by opening a name as given, that is, resolved against
  the current directory of the process rather than against the root. -/
  cwdRead : String → Option String

structure Commit where
  Message : String
  FileSnap : GoMap String

structure VC where
  WorkDir : WorkDir
  StagedFiles : GoMap Bool
  ModifiedFiles : GoMap Bool
  Commits : List Commit
  FileHashes : GoMap String

structure StatusResult where
  ModifiedFiles : List String
  StagedFiles : List String

/-! ## Go runtime and library -/

deriving instance DecidableEq for Except

/-- Two's-complement wrap of an integer into the range of a 64-bit `int`. -/
def wrapInt (x : Int) : Int := (x + 2 ^ 63) % 2 ^ 64 - 2 ^ 63

/-- Value of an ASCII decimal digit. -/
def digitVal (c : Char) : Option Nat :=
  if 48 ≤ c.toNat ∧ c.toNat ≤ 57 then some (c.toNat - 48) else none

/-- The digit loop of `strconv.ParseUint(s, 10, 64)`: a character that is not
a decimal digit is a syntax error, a value above `2^64 - 1` a range error. -/
def parseUintLoop : List Char → Nat → Except Err Nat
  | [], n => .ok n
  | c :: cs, n =>
    match digitVal c with
    | none => .error .atoiSyntaxErr
    | some d => if 2 ^ 64 ≤ n * 10 + d then .error .atoiRangeErr else parseUintLoop cs (n * 10 + d)

/-- Model of `strconv.Atoi` on its characters: optional sign, at least one digit,
value within the range of a 64-bit `int`. -/
def atoiChars (cs : List Char) : Except Err Int :=
  let neg : Bool := cs.head? = some '-'
  let ds : List Char := if cs.head? = some '-' ∨ cs.head? = some '+' then cs.tail else cs
  if ds = [] then .error .atoiSyntaxErr
  else
    match parseUintLoop ds 0 with
    | .error e => .error e
    | .ok un =>
      if neg then (if 2 ^ 63 < un then .error .atoiRangeErr else .ok (-(un : Int)))
      else (if 2 ^ 63 ≤ un then .error .atoiRangeErr else .ok (un : Int))

def Atoi (s : String) : Except Err Int := atoiChars s.data

/-! ## Reference resolution -/

/-- `VC.parseCommitRef`. -/
def VC.parseCommitRef (vc : VC) (commitRef : String) : Except Err Int :=
  match commitRef.data with
  | '~' :: rest =>
    match atoiChars rest with
    | .error e => .error e
    | .ok offset => .ok (wrapInt (wrapInt ((vc.Commits.length : Int) - 1) - offset))
  | '^' :: _ =>
    let offset : Int := commitRef.utf8ByteSize
    let commitIndex := wrapInt (wrapInt ((vc.Commits.length : Int) - offset) - 1)
    if commitIndex < 0 then .error .refOutOfRange else .ok commitIndex
  | _ => .error .invalidRef

/-! ## Working tree provider -/

/-- `os.ReadFile(filepath.Join(root, p))`: fails on a missing entry and on one
that cannot be read. -/
def WorkDir.readFile (wd : WorkDir) (p : String) : Option String :=
  match wd.files.lookup p with
  | some n => if n.readable then some n.content else none
  | none => none

/-- `os.WriteFile(filepath.Join(root, p), content, 0644)`: overwrite or create;
a created entry is readable, an overwritten one keeps its mode. -/
def WorkDir.writeFile (wd : WorkDir) (p content : String) : Option WorkDir :=
  if wd.failWrite p then none
  else
    let mode : Bool := match wd.files.lookup p with
      | some n => n.readable
      | none => true
    some { wd with files := wd.files.insert p ⟨content, mode⟩ }

/-- `os.Remove` on the entry at relative path `p`. -/
def WorkDir.remove (wd : WorkDir) (p : String) : Option WorkDir :=
  if wd.failRemove p then none else some { wd with files := wd.files.erase p }

/-- `WorkDir.Clone`: a deep copy at a fresh location; panics when the copy fails,
which it does on an entry that cannot be read (creating the target directory is
taken to succeed).  What later removes and writes on the copy do is not
determined by this code and is carried over unchanged. -/
def WorkDir.Clone (wd : WorkDir) : Option WorkDir :=
  if wd.files.entries.all (fun e => e.2.readable) then some wd else none

/-- `WorkDir.CreateFile`: `os.Create` makes an empty entry or truncates the one
that is there; `none` stands for the error. -/
def WorkDir.CreateFile (wd : WorkDir) (filename : String) : Option WorkDir :=
  wd.writeFile filename ""

/-- `WorkDir.WriteToFile`: the entry must exist to be opened (no `O_CREATE`), then
its content is replaced; `none` stands for the error. -/
def WorkDir.WriteToFile (wd : WorkDir) (filename content : String) : Option WorkDir :=
  match wd.files.lookup filename with
  | none => none
  | some _ => wd.writeFile filename content

/-- `hashFile` on the entry a walk is visiting (relative path `rel`). -/
def hashFile (H : String → String) (wd : WorkDir) (rel : String) : Option String :=
  (wd.readFile rel).map H

/-- `hashFile(name)` with the name as given, resolved against the current
directory of the process. -/
def hashFileCwd (H : String → String) (wd : WorkDir) (name : String) : Option String :=
  (wd.cwdRead name).map H

/-! ## Repository operations -/

/-- Walk callback of `computeInitialHashes` followed over the whole walk. -/
def computeInitialHashes (H : String → String) (wd : WorkDir) :
    List String → GoMap String → Option (GoMap String)
  | [], hashes => some hashes
  | rel :: rest, hashes =>
    match hashFile H wd rel with
    | none => none
    | some hash => computeInitialHashes H wd rest (hashes.insert rel hash)

/-- `computeInitialStages`. -/
def computeInitialStages (wd : WorkDir) : GoMap Bool :=
  wd.files.keys.foldl (fun staged rel => staged.insert rel false) ∅

/-- `Init`; `none` when `computeInitialHashes` panics. -/
def Init (H : String → String) (wd : WorkDir) : Option VC :=
  match computeInitialHashes H wd wd.files.keys ∅ with
  | none => none
  | some hashes =>
    some { WorkDir := wd, StagedFiles := computeInitialStages wd, ModifiedFiles := ∅,
           Commits := [], FileHashes := hashes }

/-- Walk callback of `AddAll` on the entry `rel`. -/
def addAllVisit (H : String → String) (vc : VC) (rel : String) : VC :=
  { vc with
    StagedFiles := vc.StagedFiles.insert rel true
    ModifiedFiles := vc.ModifiedFiles.insert rel false
    FileHashes := vc.FileHashes.insert rel ((hashFile H vc.WorkDir rel).getD "") }

/-- `VC.AddAll`. -/
def VC.AddAll (H : String → String) (vc : VC) : VC :=
  vc.WorkDir.files.keys.foldl (addAllVisit H) vc

/-- Body of the loop of `VC.Commit` for one entry of `StagedFiles`; the state is
the snapshot under construction and the staged map. -/
def commitVisit (wd : WorkDir) (acc : GoMap String × GoMap Bool) (file : String)
    (isStaged : Bool) : GoMap String × GoMap Bool :=
  if isStaged then
    match wd.readFile file with
    | none => acc
    | some content => (acc.1.insert file content, acc.2.insert file false)
  else (acc.1, acc.2.insert file false)

/-- `VC.Commit`. -/
def VC.Commit (vc : VC) (message : String) : VC :=
  let r := vc.StagedFiles.foldl (commitVisit vc.WorkDir) (∅, vc.StagedFiles)
  { vc with StagedFiles := r.2, Commits := vc.Commits ++ [⟨message, r.1⟩] }

/-- Walk callback inside `VC.Add` for the name `file`, on the entry `rel`. -/
def addWalkVisit (H : String → String) (file : String) (vc : VC) (rel : String) : VC :=
  if rel = file then
    { vc with FileHashes := vc.FileHashes.insert rel ((hashFile H vc.WorkDir rel).getD "") }
  else vc

/-- Body of the loop of `VC.Add` for one name. -/
def addVisit (H : String → String) (vc : VC) (file : String) : VC :=
  let vc1 : VC :=
    { vc with
      StagedFiles := vc.StagedFiles.insert file true
      ModifiedFiles := vc.ModifiedFiles.insert file false
      FileHashes := vc.FileHashes.insert file ((hashFileCwd H vc.WorkDir file).getD "") }
  vc1.WorkDir.files.keys.foldl (addWalkVisit H file) vc1

/-- `VC.Add`. -/
def VC.Add (H : String → String) (vc : VC) (files : List String) : VC :=
  files.foldl (addVisit H) vc

/-- The walk of `VC.Status` over the remaining entries; `none` when `hashFile`
fails on one of them, which makes `Status` panic. -/
def statusWalk (H : String → String) :
    List String → StatusResult × VC → Option (StatusResult × VC)
  | [], acc => some acc
  | relPath :: rest, (r, vc) =>
    match hashFile H vc.WorkDir relPath with
    | none => none
    | some currentHash =>
      let stagedState := (vc.StagedFiles.lookup relPath).getD false
      let lastHash := (vc.FileHashes.lookup relPath).getD ""
      let r1 : StatusResult :=
        if lastHash ≠ currentHash then { r with ModifiedFiles := r.ModifiedFiles ++ [relPath] }
        else r
      let vc1 : VC :=
        if lastHash ≠ currentHash then
          { vc with ModifiedFiles := vc.ModifiedFiles.insert relPath true }
        else vc
      let r2 : StatusResult :=
        if stagedState then { r1 with StagedFiles := r1.StagedFiles ++ [relPath] } else r1
      statusWalk H rest (r2, vc1)

/-- `VC.Status`. -/
def VC.Status (H : String → String) (vc : VC) : Option (StatusResult × VC) :=
  statusWalk H vc.WorkDir.files.keys (⟨[], []⟩, vc)

/-- The swap loop of `Log`, `for i, j := 0, len-1; i < j; i, j = i+1, j-1`,
with a bound on the number of iterations
(the loop runs at most `len / 2` times). -/
def swapLoop : Nat → List String → Int → Int → List String
  | 0, msgs, _, _ => msgs
  | fuel + 1, msgs, i, j =>
    if i < j then
      swapLoop fuel
        ((msgs.set i.toNat (msgs.getD j.toNat "")).set j.toNat (msgs.getD i.toNat ""))
        (i + 1) (j - 1)
    else msgs

/-- `VC.Log`: collect the messages in log order, then reverse the slice in place. -/
def VC.Log (vc : VC) : List String :=
  let commitsMessages := vc.Commits.foldl (fun acc commit => acc ++ [commit.Message]) []
  swapLoop commitsMessages.length commitsMessages 0 ((commitsMessages.length : Int) - 1)

/-- The walk of `clearCurrentState`: remove each entry, stop at the first
failing remove. -/
def clearWalk : List String → WorkDir → Option Err × WorkDir
  | [], wd => (none, wd)
  | p :: rest, wd =>
    match wd.remove p with
    | none => (some .removeFailed, wd)
    | some wd1 => clearWalk rest wd1

/-- `VC.clearCurrentState`. -/
def VC.clearCurrentState (vc : VC) : Option Err × VC :=
  let r := clearWalk vc.WorkDir.files.keys vc.WorkDir
  (r.1, { vc with WorkDir := r.2 })

/-- The write loop of `revertToCommit` over the entries of the snapshot. -/
def writeLoop : List (Σ _ : String, String) → WorkDir → Option Err × WorkDir
  | [], wd => (none, wd)
  | ⟨path, content⟩ :: rest, wd =>
    match wd.writeFile path content with
    | none => (some .writeFailed, wd)
    | some wd1 => writeLoop rest wd1

/-- `VC.revertToCommit`. -/
def VC.revertToCommit (vc : VC) (commitIndex : Int) : Option Err × VC :=
  if h : commitIndex < 0 ∨ commitIndex ≥ vc.Commits.length then (some .invalidIndex, vc)
  else
    let commit := vc.Commits.get ⟨commitIndex.toNat, by omega⟩
    match vc.clearCurrentState with
    | (some _, vc1) => (some .clearFailed, vc1)
    | (none, vc1) =>
      let r := writeLoop commit.FileSnap.entries vc1.WorkDir
      (r.1, { vc1 with WorkDir := r.2 })

/-- `VC.Checkout`; `none` when `Clone` panics. -/
def VC.Checkout (vc : VC) (commitRef : String) : Option (Except Err GitSim.WorkDir × VC) :=
  match vc.parseCommitRef commitRef with
  | .error e => some (.error e, vc)
  | .ok commitIndex =>
    match vc.revertToCommit commitIndex with
    | (some e, vc1) => some (.error e, vc1)
    | (none, vc1) =>
      match vc1.WorkDir.Clone with
      | none => none
      | some clone => some (.ok clone, vc1)

/-! ## Derived notions used in the statements -/

/-- The repository after the directory behind `WorkDir.Path` has changed to `wd`
without the repository being told: `VC` only holds a pointer to it. -/
def VC.withTree (vc : VC) (wd : GitSim.WorkDir) : VC := { vc with WorkDir := wd }

/-- `Reach H vc seen`: the state `vc` is reached from `Init` by a sequence of
`AddAll`, `Add`, `Commit`, `Status` and `Checkout` interleaved with changes of
the working tree; `seen` lists the paths that `Init` and `AddAll` found in the
tree on the way and the names that were handed to `Add`. -/
inductive Reach (H : String → String) : VC → List String → Prop where
  | init (wd : WorkDir) (vc : VC) (h : Init H wd = some vc) : Reach H vc wd.files.keys
  | addAll (vc : VC) (seen : List String) (h : Reach H vc seen) :
      Reach H (vc.AddAll H) (seen ++ vc.WorkDir.files.keys)
  | add (vc : VC) (seen : List String) (files : List String) (h : Reach H vc seen) :
      Reach H (vc.Add H files) (seen ++ files)
  | commit (vc : VC) (seen : List String) (message : String) (h : Reach H vc seen) :
      Reach H (vc.Commit message) seen
  | status (vc : VC) (seen : List String) (r : StatusResult) (vc1 : VC) (h : Reach H vc seen)
      (hs : vc.Status H = some (r, vc1)) : Reach H vc1 seen
  | checkout (vc : VC) (seen : List String) (commitRef : String)
      (res : Except Err WorkDir) (vc1 : VC) (h : Reach H vc seen)
      (hc : vc.Checkout commitRef = some (res, vc1)) : Reach H vc1 seen
  | treeChange (vc : VC) (seen : List String) (wd : WorkDir) (h : Reach H vc seen) :
      Reach H (vc.withTree wd) seen

/-- Whether the walk of `Status` reports `p` as modified in state `vc`. -/
def modifiedNow (H : String → String) (vc : VC) (p : String) : Bool :=
  decide ((vc.FileHashes.lookup p).getD "" ≠ (hashFile H vc.WorkDir p).getD "")

/-- Whether the walk of `Status` reports `p` as staged in state `vc`. -/
def stagedNow (vc : VC) (p : String) : Bool := (vc.StagedFiles.lookup p).getD false

/-- The hash-cache entry that `Add` leaves for a name. -/
def addedHash (H : String → String) (wd : WorkDir) (file : String) : String :=
  if file ∈ wd.files.keys then (hashFile H wd file).getD "" else (hashFileCwd H wd file).getD ""

/-! ## Example states -/

/-- Stand-in for SHA-1 in examples: it never returns the empty string. -/
def toyHash (s : String) : String := "sha1:" ++ s

/-- An empty working tree in which no remove or write fails. -/
def emptyTree : WorkDir :=
  { files := ∅, failRemove := fun _ => false, failWrite := fun _ => false,
    cwdRead := fun _ => none }

/-- A repository with `n` empty commits over an empty tree. -/
def logOf (n : Nat) : VC :=
  { WorkDir := emptyTree, StagedFiles := ∅, ModifiedFiles := ∅,
    Commits := List.replicate n ⟨"m", ∅⟩, FileHashes := ∅ }

/-- The path `gone.txt` is staged but no such file is in the tree. -/
def stagedButGone : VC :=
  { WorkDir := emptyTree, StagedFiles := (∅ : GoMap Bool).insert "gone.txt" true,
    ModifiedFiles := ∅, Commits := [], FileHashes := ∅ }

/-- A tree with a stray file and an outdated `a.txt`, and a log of one commit
that recorded `a.txt` = "hello". -/
def dirtyRepo : VC :=
  { WorkDir :=
      { files := ((∅ : GoMap Node).insert "a.txt" ⟨"old", true⟩).insert "junk.txt" ⟨"x", true⟩
        failRemove := fun _ => false, failWrite := fun _ => false, cwdRead := fun _ => none }
    StagedFiles := ∅, ModifiedFiles := ∅
    Commits := [⟨"first", (∅ : GoMap String).insert "a.txt" "hello"⟩]
    FileHashes := ∅ }

/-- A tree whose only entry `a.txt` cannot be read. -/
def unreadableRepo : VC :=
  { WorkDir :=
      { files := (∅ : GoMap Node).insert "a.txt" ⟨"hello", false⟩
        failRemove := fun _ => false, failWrite := fun _ => false, cwdRead := fun _ => none }
    StagedFiles := ∅, ModifiedFiles := ∅, Commits := [], FileHashes := ∅ }

/-- A tree with `a.txt` unchanged since it was hashed and staged, `b.txt` edited
since it was hashed, and `c.txt` never hashed. -/
def editedRepo : VC :=
  { WorkDir :=
      { files := (((∅ : GoMap Node).insert "a.txt" ⟨"hello", true⟩).insert "b.txt"
          ⟨"new", true⟩).insert "c.txt" ⟨"fresh", true⟩
        failRemove := fun _ => false, failWrite := fun _ => false, cwdRead := fun _ => none }
    StagedFiles := ((∅ : GoMap Bool).insert "a.txt" true).insert "b.txt" false
    ModifiedFiles := ∅, Commits := []
    FileHashes := ((∅ : GoMap String).insert "a.txt" (toyHash "hello")).insert "b.txt"
      (toyHash "old") }

/-- The error of a result, if it is one. -/
def errorOf {α : Type} : Except Err α → Option Err
  | .error e => some e
  | .ok _ => none

/-- A tree whose only entry is a readable `a.txt` with the given content. -/
def treeWith (content : String) : WorkDir :=
  { files := (∅ : GoMap Node).insert "a.txt" ⟨content, true⟩
    failRemove := fun _ => false, failWrite := fun _ => false, cwdRead := fun _ => none }

/-- A log of three empty commits with distinct messages over an empty tree. -/
def threeCommits : VC :=
  { WorkDir := emptyTree, StagedFiles := ∅, ModifiedFiles := ∅,
    Commits := [⟨"first", ∅⟩, ⟨"second", ∅⟩, ⟨"third", ∅⟩], FileHashes := ∅ }

/-- The scenario of the specification up to the first commit: `Init` on an empty
tree, `AddAll`, `Commit("first")`. -/
def scenarioFirst (H : String → String) : Option VC :=
  (Init H emptyTree).map (fun vc => (vc.AddAll H).Commit "first")

/-- The scenario continued: `a.txt` is created with content "hello", staged with
`Add` and committed as "second". -/
def scenarioSecond (H : String → String) : Option VC :=
  (scenarioFirst H).bind (fun vc =>
    ((vc.WorkDir.CreateFile "a.txt").bind (fun wd => wd.WriteToFile "a.txt" "hello")).map
      (fun wd => ((vc.withTree wd).Add H ["a.txt"]).Commit "second"))

/-- The files of the tree that `Checkout` returned, with their contents; the
inner `none` stands for an error. -/
def returnedFiles (x : Except Err WorkDir × VC) : Option (List (String × String)) :=
  x.1.toOption.map (fun wd => wd.files.entries.map (fun e => (e.1, e.2.content)))

/-! ## Lemmas on the library model -/

theorem wrapInt_eq (x : Int) (h1 : -(2 ^ 63) ≤ x) (h2 : x < 2 ^ 63) : wrapInt x = x := by
  unfold wrapInt
  norm_num at h1 h2 ⊢
  omega

theorem digitVal_digitChar (k : Nat) (hk : k < 10) : digitVal (Nat.digitChar k) = some k := by
  interval_cases k <;> rfl

theorem parseUintLoop_toDigitsCore (fuel : Nat) :
    ∀ (n : Nat) (ds : List Char), n < fuel → n < 2 ^ 64 →
      parseUintLoop (Nat.toDigitsCore 10 fuel n ds) 0 = parseUintLoop ds n := by
  induction fuel with
  | zero => intro n ds h; omega
  | succ fuel ih =>
    intro n ds hf hn
    have hd : digitVal (Nat.digitChar (n % 10)) = some (n % 10) :=
      digitVal_digitChar _ (Nat.mod_lt _ (by decide))
    unfold Nat.toDigitsCore
    by_cases h0 : n / 10 = 0
    · have hn' : n % 10 = n := by omega
      simp only [h0, if_true]
      rw [parseUintLoop, hd]
      simp only [Nat.zero_mul, Nat.zero_add, hn']
      rw [if_neg (by omega)]
    · simp only [h0, if_false]
      rw [ih (n / 10) _ (by omega) (by omega)]
      rw [parseUintLoop, hd]
      have : n / 10 * 10 + n % 10 = n := by omega
      simp only [this]
      rw [if_neg (by omega)]

theorem toDigitsCore_ne_nil (fuel : Nat) :
    ∀ (n : Nat) (ds : List Char), ds ≠ [] → Nat.toDigitsCore 10 fuel n ds ≠ [] := by
  induction fuel with
  | zero => intro n ds h; simpa [Nat.toDigitsCore] using h
  | succ fuel ih =>
    intro n ds h
    unfold Nat.toDigitsCore
    by_cases h0 : n / 10 = 0
    · simp [h0]
    · simp only [h0, if_false]
      exact ih _ _ (by simp)

theorem toDigits_ne_nil (n : Nat) : Nat.toDigits 10 n ≠ [] := by
  unfold Nat.toDigits Nat.toDigitsCore
  by_cases h0 : n / 10 = 0
  · simp [h0]
  · simp only [h0, if_false]
    exact toDigitsCore_ne_nil _ _ _ (by simp)

theorem parseUintLoop_toDigits (n : Nat) (hn : n < 2 ^ 64) :
    parseUintLoop (Nat.toDigits 10 n) 0 = .ok n := by
  unfold Nat.toDigits
  rw [parseUintLoop_toDigitsCore _ _ _ (by omega) hn]
  rfl

theorem head_of_parseUintLoop_ok (cs : List Char) (n : Nat)
    (h : parseUintLoop cs 0 = .ok n) : cs.head? ≠ some '-' ∧ cs.head? ≠ some '+' := by
  cases cs with
  | nil => simp
  | cons c cs =>
    constructor
    · intro hc
      have : c = '-' := by simpa using hc
      subst this
      simp [parseUintLoop, digitVal] at h
    · intro hc
      have : c = '+' := by simpa using hc
      subst this
      simp [parseUintLoop, digitVal] at h

theorem atoiChars_toDigits (n : Nat) (hn : n < 2 ^ 63) :
    atoiChars (Nat.toDigits 10 n) = .ok (n : Int) := by
  have hp := parseUintLoop_toDigits n (by omega)
  obtain ⟨h1, h2⟩ := head_of_parseUintLoop_ok _ _ hp
  unfold atoiChars
  simp only [h1, h2, or_self, if_false, decide_False, toDigits_ne_nil, hp]
  rw [if_neg (Nat.not_le.mpr hn)]
  simp

theorem parseUintLoop_toDigitsCore_any (fuel : Nat) :
    ∀ (n : Nat) (ds : List Char), n < fuel →
      parseUintLoop (Nat.toDigitsCore 10 fuel n ds) 0 =
        if 2 ^ 64 ≤ n then .error .atoiRangeErr else parseUintLoop ds n := by
  induction fuel with
  | zero => intro n ds h; omega
  | succ fuel ih =>
    intro n ds hf
    have hd : digitVal (Nat.digitChar (n % 10)) = some (n % 10) :=
      digitVal_digitChar _ (Nat.mod_lt _ (by decide))
    unfold Nat.toDigitsCore
    by_cases h0 : n / 10 = 0
    · have hn' : n % 10 = n := by omega
      simp only [h0, if_true]
      rw [parseUintLoop, hd]
      simp only [Nat.zero_mul, Nat.zero_add, hn']
    · simp only [h0, if_false]
      rw [ih (n / 10) _ (by omega)]
      have h64 : (2 : Nat) ^ 64 = 18446744073709551616 := by norm_num
      by_cases hbig : 2 ^ 64 ≤ n / 10
      · rw [if_pos hbig, if_pos (by omega)]
      · rw [if_neg hbig, parseUintLoop, hd]
        have : n / 10 * 10 + n % 10 = n := by omega
        simp only [this]

theorem head_of_parseUintLoop_not_syntax (cs : List Char)
    (h : parseUintLoop cs 0 ≠ .error .atoiSyntaxErr) :
    cs.head? ≠ some '-' ∧ cs.head? ≠ some '+' := by
  cases cs with
  | nil => simp
  | cons c cs =>
    constructor
    · intro hc
      have : c = '-' := by simpa using hc
      subst this
      exact h (by simp [parseUintLoop, digitVal])
    · intro hc
      have : c = '+' := by simpa using hc
      subst this
      exact h (by simp [parseUintLoop, digitVal])

/-- `Atoi` rejects the decimal rendering of a number that does not fit an `int`. -/
theorem atoiChars_toDigits_big (n : Nat) (hn : 2 ^ 63 ≤ n) :
    atoiChars (Nat.toDigits 10 n) = .error .atoiRangeErr := by
  have hp : parseUintLoop (Nat.toDigits 10 n) 0 =
      if 2 ^ 64 ≤ n then .error .atoiRangeErr else .ok n := by
    unfold Nat.toDigits
    rw [parseUintLoop_toDigitsCore_any _ _ _ (by omega)]
    rfl
  have hns : parseUintLoop (Nat.toDigits 10 n) 0 ≠ .error .atoiSyntaxErr := by
    rw [hp]
    split <;> simp
  obtain ⟨h1, h2⟩ := head_of_parseUintLoop_not_syntax _ hns
  unfold atoiChars
  simp only [h1, h2, or_self, if_false, decide_False, toDigits_ne_nil, hp]
  have hn' : 9223372036854775808 ≤ n := by
    have h63 : (2 : Nat) ^ 63 = 9223372036854775808 := by norm_num
    omega
  by_cases hbig : 18446744073709551616 ≤ n
  · simp [hbig]
  · simp [hbig, hn']

theorem data_tilde_toString (n : Nat) : ("~" ++ toString n).data = '~' :: Nat.toDigits 10 n := by
  simp [toString, Nat.repr, List.asString]

theorem utf8ByteSize_replicate (k : Nat) : (String.mk (List.replicate k '^')).utf8ByteSize = k := by
  induction k with
  | zero => rfl
  | succ k ih =>
    simp only [List.replicate_succ, String.utf8ByteSize, String.utf8ByteSize.go] at ih ⊢
    rw [ih]
    rfl

/-! ## Lemmas on `Commit` -/

theorem readFile_isSome_iff (wd : WorkDir) (p : String) :
    (wd.readFile p).isSome ↔ ∃ n, wd.files.lookup p = some n ∧ n.readable = true := by
  unfold WorkDir.readFile
  cases h : wd.files.lookup p with
  | none => simp
  | some n => cases hr : n.readable <;> simp [hr]

/-- Snapshot built by the loop of `Commit` over a list of entries. -/
theorem commit_fold_snapshot (wd : WorkDir) (l : List (Σ _ : String, Bool)) :
    ∀ (acc : GoMap String × GoMap Bool) (p : String),
      (l.foldl (fun r a => commitVisit wd r a.1 a.2) acc).1.lookup p =
        if (⟨p, true⟩ : Σ _ : String, Bool) ∈ l ∧ (wd.readFile p).isSome then wd.readFile p
        else acc.1.lookup p := by
  induction l with
  | nil => intro acc p; simp
  | cons e l ih =>
    intro acc p
    obtain ⟨f, b⟩ := e
    rw [List.foldl_cons, ih]
    by_cases hin : (⟨p, true⟩ : Σ _ : String, Bool) ∈ l ∧ (wd.readFile p).isSome
    · rw [if_pos hin, if_pos ⟨List.mem_cons_of_mem _ hin.1, hin.2⟩]
    · rw [if_neg hin]
      cases b with
      | false =>
        have : ¬ ((⟨p, true⟩ : Σ _ : String, Bool) ∈ (⟨f, false⟩ :: l) ∧ (wd.readFile p).isSome) := by
          intro h
          rcases List.mem_cons.mp h.1 with h1 | h1
          · simp at h1
          · exact hin ⟨h1, h.2⟩
        rw [if_neg this]
        simp [commitVisit]
      | true =>
        by_cases hpf : p = f
        · subst hpf
          cases hr : wd.readFile p with
          | none => simp [commitVisit, hr]
          | some c => simp [commitVisit, hr]
        · have : ¬ ((⟨p, true⟩ : Σ _ : String, Bool) ∈ (⟨f, true⟩ :: l) ∧ (wd.readFile p).isSome) := by
            intro h
            rcases List.mem_cons.mp h.1 with h1 | h1
            · simp at h1; exact hpf h1
            · exact hin ⟨h1, h.2⟩
          rw [if_neg this]
          cases hr : wd.readFile f with
          | none => simp [commitVisit, hr]
          | some c => simp [commitVisit, hr, AList.lookup_insert_ne hpf]

theorem commit_snapshot (vc : VC) (message : String) :
    ∃ snap : GoMap String,
      (vc.Commit message).Commits = vc.Commits ++ [⟨message, snap⟩] ∧
      ∀ p, snap.lookup p =
        if vc.StagedFiles.lookup p = some true then vc.WorkDir.readFile p else none := by
  refine ⟨_, rfl, ?_⟩
  intro p
  simp only [AList.foldl]
  rw [commit_fold_snapshot]
  have hmem : (⟨p, true⟩ : Σ _ : String, Bool) ∈ vc.StagedFiles.entries ↔
      vc.StagedFiles.lookup p = some true := by
    rw [← AList.mem_lookup_iff]; simp [Option.mem_def]
  by_cases hs : vc.StagedFiles.lookup p = some true
  · rw [if_pos hs]
    cases hr : vc.WorkDir.readFile p with
    | none => simp [AList.lookup_empty]
    | some c => simp [hmem, hs]
  · rw [if_neg hs, if_neg (by rw [hmem]; exact fun h => hs h.1)]
    simp [AList.lookup_empty]

/-! ## Lemmas on `Log` -/

theorem swapLoop_length (fuel : Nat) : ∀ (msgs : List String) (i j : Int),
    (swapLoop fuel msgs i j).length = msgs.length := by
  induction fuel with
  | zero => intro msgs i j; rfl
  | succ fuel ih =>
    intro msgs i j
    unfold swapLoop
    split
    · rw [ih]; simp
    · rfl

theorem swapLoop_getElem? (fuel : Nat) : ∀ (msgs : List String) (i : Nat),
    2 * i ≤ msgs.length → msgs.length ≤ 2 * i + 2 * fuel →
    ∀ k : Nat, (swapLoop fuel msgs i ((msgs.length : Int) - 1 - i))[k]? =
      if i ≤ k ∧ k + i < msgs.length then msgs[msgs.length - 1 - i - (k - i)]? else msgs[k]? := by
  induction fuel with
  | zero =>
    intro msgs i h1 h2 k
    simp only [swapLoop]
    split
    · rename_i h
      have : msgs.length - 1 - i - (k - i) = k := by omega
      rw [this]
    · rfl
  | succ fuel ih =>
    intro msgs i h1 h2 k
    unfold swapLoop
    by_cases hlt : (i : Int) < (msgs.length : Int) - 1 - i
    · rw [if_pos hlt]
      have hj : ((msgs.length : Int) - 1 - i).toNat = msgs.length - 1 - i := by omega
      have hi : (i : Int).toNat = i := by simp
      rw [hj, hi]
      set msgs' := (msgs.set i (msgs.getD (msgs.length - 1 - i) "")).set (msgs.length - 1 - i)
        (msgs.getD i "") with hm
      have hlen : msgs'.length = msgs.length := by simp [hm]
      have e : ((msgs.length : Int) - 1 - i - 1) = (msgs'.length : Int) - 1 - ((i + 1 : Nat) : Int) := by
        rw [hlen]; push_cast; ring
      have e2 : ((i : Int) + 1) = ((i + 1 : Nat) : Int) := by push_cast; ring
      rw [e, e2, ih msgs' (i + 1) (by omega) (by omega) k, hlen]
      by_cases hk1 : i + 1 ≤ k ∧ k + (i + 1) < msgs.length
      · rw [if_pos hk1, if_pos (by omega)]
        have : msgs.length - 1 - (i + 1) - (k - (i + 1)) = msgs.length - 1 - i - (k - i) := by omega
        rw [this, hm]
        rw [List.getElem?_set_ne (by omega), List.getElem?_set_ne (by omega)]
      · rw [if_neg hk1]
        by_cases hki : k = i
        · subst hki
          rw [if_pos (by omega)]
          rw [hm, List.getElem?_set_ne (by omega), List.getElem?_set_self (by omega)]
          simp only [Nat.sub_self, Nat.sub_zero]
          rw [List.getD_eq_getElem?_getD]
          have hlt1 : k < msgs.length := by omega
          have hlt2 : msgs.length - 1 - k < msgs.length := by omega
          simp [hlt1, hlt2]
        · by_cases hkj : k = msgs.length - 1 - i
          · subst hkj
            rw [if_pos (by omega)]
            rw [hm, List.getElem?_set_self (by rw [List.length_set]; omega)]
            have : msgs.length - 1 - i - (msgs.length - 1 - i - i) = i := by omega
            rw [this, List.getD_eq_getElem?_getD]
            have hlt1 : i < msgs.length := by omega
            have hlt2 : msgs.length - 1 - i < msgs.length := by omega
            simp [hlt1, hlt2]
          · rw [if_neg (by omega)]
            rw [hm, List.getElem?_set_ne (by omega), List.getElem?_set_ne (by omega)]
    · rw [if_neg hlt]
      split
      · have : msgs.length - 1 - i - (k - i) = k := by omega
        rw [this]
      · rfl

theorem swapLoop_eq_reverse (msgs : List String) :
    swapLoop msgs.length msgs 0 ((msgs.length : Int) - 1) = msgs.reverse := by
  apply List.ext_getElem?
  intro k
  have h := swapLoop_getElem? msgs.length msgs 0 (by omega) (by omega) k
  simp only [Nat.cast_zero, sub_zero, Nat.zero_le, true_and, Nat.add_zero, Nat.sub_zero] at h
  rw [h]
  by_cases hk : k < msgs.length
  · rw [if_pos hk, List.getElem?_reverse hk]
  · rw [if_neg hk]
    rw [List.getElem?_eq_none (by omega), List.getElem?_eq_none (by simp; omega)]

theorem foldl_append_message (l : List Commit) : ∀ acc : List String,
    l.foldl (fun acc commit => acc ++ [commit.Message]) acc =
      acc ++ l.map (fun commit => commit.Message) := by
  induction l with
  | nil => intro acc; simp
  | cons c l ih => intro acc; simp [ih]

/-- The swap loop of `Log` runs to completion: the result is the list of
messages, newest first. -/
theorem log_eq_reverse (vc : VC) :
    vc.Log = (vc.Commits.map (fun commit => commit.Message)).reverse := by
  unfold VC.Log
  simp only [foldl_append_message, List.nil_append]
  exact swapLoop_eq_reverse _

/-! ## Lemmas on `Checkout` -/

/-- Effect of the clearing walk when no remove on its way fails. -/
theorem clearWalk_ok (l : List String) :
    ∀ wd : WorkDir, (∀ p ∈ l, wd.failRemove p = false) →
      (clearWalk l wd).1 = none ∧
      (clearWalk l wd).2.failWrite = wd.failWrite ∧
      (∀ p, p ∈ l → (clearWalk l wd).2.files.lookup p = none) ∧
      (∀ p, wd.files.lookup p = none → (clearWalk l wd).2.files.lookup p = none) := by
  induction l with
  | nil => intro wd _; simp [clearWalk]
  | cons q l ih =>
    intro wd h
    have hq : wd.failRemove q = false := h q (List.mem_cons_self _ _)
    have hstep : clearWalk (q :: l) wd = clearWalk l { wd with files := wd.files.erase q } := by
      simp [clearWalk, WorkDir.remove, hq]
    rw [hstep]
    obtain ⟨h1, h2, h3, h4⟩ := ih { wd with files := wd.files.erase q }
      (fun p hp => h p (List.mem_cons_of_mem _ hp))
    refine ⟨h1, h2, ?_, ?_⟩
    · intro p hp
      rcases List.mem_cons.mp hp with rfl | hp
      · exact h4 _ (by simp)
      · exact h3 p hp
    · intro p hp
      apply h4
      by_cases hpq : p = q
      · subst hpq; simp
      · simpa [AList.lookup_erase_ne hpq] using hp

/-- Effect of the write loop when no write on its way fails. -/
theorem writeLoop_ok (l : List (Σ _ : String, String)) :
    ∀ wd : WorkDir, l.NodupKeys → (∀ e ∈ l, wd.failWrite e.1 = false) →
      (writeLoop l wd).1 = none ∧
      (∀ p, p ∉ l.keys → (writeLoop l wd).2.files.lookup p = wd.files.lookup p) ∧
      (∀ p c, (⟨p, c⟩ : Σ _ : String, String) ∈ l →
        ∃ n, (writeLoop l wd).2.files.lookup p = some n ∧ n.content = c ∧
          (wd.files.lookup p = none → n.readable = true)) := by
  induction l with
  | nil => intro wd _ _; simp [writeLoop]
  | cons e l ih =>
    intro wd hnd h
    obtain ⟨q, d⟩ := e
    have hq : wd.failWrite q = false := h ⟨q, d⟩ (List.mem_cons_self _ _)
    rw [List.nodupKeys_cons] at hnd
    obtain ⟨hql, hnd⟩ := hnd
    obtain ⟨wd1, hw, hfw, hf⟩ : ∃ wd1, wd.writeFile q d = some wd1 ∧ wd1.failWrite = wd.failWrite ∧
        ∃ m, wd1.files = wd.files.insert q ⟨d, m⟩ ∧ (wd.files.lookup q = none → m = true) := by
      refine ⟨{ wd with files := wd.files.insert q ⟨d, match wd.files.lookup q with
          | some n => n.readable
          | none => true⟩ }, by unfold WorkDir.writeFile; rw [hq]; rfl, rfl, _, rfl, ?_⟩
      intro hn
      simp [hn]
    obtain ⟨m, hfiles, hm⟩ := hf
    have hstep : writeLoop (⟨q, d⟩ :: l) wd = writeLoop l wd1 := by
      simp [writeLoop, hw]
    rw [hstep]
    obtain ⟨h1, h2, h3⟩ := ih wd1 hnd
      (fun e he => by rw [hfw]; exact h e (List.mem_cons_of_mem _ he))
    refine ⟨h1, ?_, ?_⟩
    · intro p hp
      have hpq : p ≠ q := fun hpq => hp (by simp [List.keys, hpq])
      have hpl : p ∉ l.keys := fun hpl => hp (by simp [List.keys] at hpl ⊢; exact Or.inr hpl)
      rw [h2 p hpl, hfiles, AList.lookup_insert_ne hpq]
    · intro p c hpc
      rcases List.mem_cons.mp hpc with heq | hpl
      · cases heq
        refine ⟨⟨d, m⟩, ?_, rfl, hm⟩
        rw [h2 q hql, hfiles, AList.lookup_insert]
      · have hpk : p ∈ l.keys := List.mem_keys_of_mem hpl
        have hpq : p ≠ q := fun hpq => hql (hpq ▸ hpk)
        obtain ⟨n, hn1, hn2, hn3⟩ := h3 p c hpl
        refine ⟨n, hn1, hn2, fun hnone => hn3 ?_⟩
        rw [hfiles, AList.lookup_insert_ne hpq]
        exact hnone

/-- Result of `revertToCommit` on an index inside the log when no remove and no
write fails. -/
theorem revertToCommit_ok (vc : VC) (i : Int) (commit : Commit) (h0 : 0 ≤ i)
    (hc : vc.Commits[i.toNat]? = some commit)
    (hrm : ∀ p ∈ vc.WorkDir.files.keys, vc.WorkDir.failRemove p = false)
    (hwr : ∀ p ∈ commit.FileSnap.keys, vc.WorkDir.failWrite p = false) :
    ∃ wd2 : WorkDir, vc.revertToCommit i = (none, { vc with WorkDir := wd2 }) ∧
      (∀ p, p ∈ wd2.files ↔ p ∈ commit.FileSnap) ∧
      (∀ p c, commit.FileSnap.lookup p = some c → wd2.readFile p = some c) ∧
      (∀ p n, wd2.files.lookup p = some n → n.readable = true) := by
  obtain ⟨hlt, hget⟩ := List.getElem?_eq_some_iff.mp hc
  obtain ⟨c1, c2, c3, c4⟩ := clearWalk_ok vc.WorkDir.files.keys vc.WorkDir hrm
  have hempty : ∀ p, (clearWalk vc.WorkDir.files.keys vc.WorkDir).2.files.lookup p = none := by
    intro p
    by_cases hp : p ∈ vc.WorkDir.files.keys
    · exact c3 p hp
    · exact c4 p (AList.lookup_eq_none.mpr hp)
  obtain ⟨w1, w2, w3⟩ := writeLoop_ok commit.FileSnap.entries
    (clearWalk vc.WorkDir.files.keys vc.WorkDir).2 commit.FileSnap.nodupKeys
    (fun e he => by rw [c2]; exact hwr e.1 (List.mem_keys_of_mem he))
  refine ⟨(writeLoop commit.FileSnap.entries (clearWalk vc.WorkDir.files.keys vc.WorkDir).2).2,
    ?_, ?_, ?_, ?_⟩
  · unfold VC.revertToCommit
    have hnot : ¬ (i < 0 ∨ i ≥ vc.Commits.length) := by omega
    rw [dif_neg hnot]
    have hcl : vc.clearCurrentState =
        (none, { vc with WorkDir := (clearWalk vc.WorkDir.files.keys vc.WorkDir).2 }) := by
      unfold VC.clearCurrentState
      simp only [c1]
    simp only [hcl, List.get_eq_getElem, hget, w1]
  · intro p
    constructor
    · intro hp
      by_contra hnp
      have := w2 p hnp
      rw [hempty p] at this
      exact (AList.lookup_eq_none.mp this) hp
    · intro hp
      obtain ⟨c, hc⟩ := Option.isSome_iff_exists.mp (AList.lookup_isSome.mpr hp)
      obtain ⟨n, hn, _, _⟩ := w3 p c (AList.mem_lookup_iff.mp hc)
      exact AList.lookup_isSome.mp (by rw [hn]; rfl)
  · intro p c hpc
    obtain ⟨n, hn, hcont, hr⟩ := w3 p c (AList.mem_lookup_iff.mp hpc)
    unfold WorkDir.readFile
    rw [hn]
    simp [hr (hempty p), hcont]
  · intro p n hn
    by_cases hp : p ∈ commit.FileSnap.keys
    · obtain ⟨c, hc⟩ := Option.isSome_iff_exists.mp (AList.lookup_isSome.mpr hp)
      obtain ⟨n', hn', _, hr⟩ := w3 p c (AList.mem_lookup_iff.mp hc)
      rw [hn] at hn'
      cases hn'
      exact hr (hempty p)
    · have := w2 p hp
      rw [hempty p, hn] at this
      cases this

theorem clone_of_readable (wd : WorkDir)
    (h : ∀ p n, wd.files.lookup p = some n → n.readable = true) : wd.Clone = some wd := by
  unfold WorkDir.Clone
  rw [if_pos]
  rw [List.all_eq_true]
  intro e he
  obtain ⟨p, n⟩ := e
  exact h p n (AList.mem_lookup_iff.mpr he)

/-! ## Lemmas on `Status` -/

theorem statusWalk_some (H : String → String) (l : List String) :
    ∀ (r : StatusResult) (vc : VC) (r1 : StatusResult) (vc1 : VC),
      statusWalk H l (r, vc) = some (r1, vc1) →
        vc1.WorkDir = vc.WorkDir ∧ vc1.StagedFiles = vc.StagedFiles ∧
        vc1.FileHashes = vc.FileHashes ∧ vc1.Commits = vc.Commits ∧
        (∀ p ∈ l, (hashFile H vc.WorkDir p).isSome) ∧
        r1.ModifiedFiles = r.ModifiedFiles ++ l.filter (modifiedNow H vc) ∧
        r1.StagedFiles = r.StagedFiles ++ l.filter (stagedNow vc) := by
  induction l with
  | nil =>
    intro r vc r1 vc1 h
    simp only [statusWalk, Option.some.injEq, Prod.mk.injEq] at h
    obtain ⟨rfl, rfl⟩ := h
    simp
  | cons q l ih =>
    intro r vc r1 vc1 h
    unfold statusWalk at h
    cases hq : hashFile H vc.WorkDir q with
    | none => simp [hq] at h
    | some cur =>
      simp only [hq] at h
      obtain ⟨e1, e2, e3, e4, e5, e6, e7⟩ := ih _ _ _ _ h
      have hwd : (if (vc.FileHashes.lookup q).getD "" ≠ cur then
          ({ vc with ModifiedFiles := vc.ModifiedFiles.insert q true } : VC) else vc).WorkDir
          = vc.WorkDir := by split <;> rfl
      have hst : (if (vc.FileHashes.lookup q).getD "" ≠ cur then
          ({ vc with ModifiedFiles := vc.ModifiedFiles.insert q true } : VC) else vc).StagedFiles
          = vc.StagedFiles := by split <;> rfl
      have hfh : (if (vc.FileHashes.lookup q).getD "" ≠ cur then
          ({ vc with ModifiedFiles := vc.ModifiedFiles.insert q true } : VC) else vc).FileHashes
          = vc.FileHashes := by split <;> rfl
      have hcm : (if (vc.FileHashes.lookup q).getD "" ≠ cur then
          ({ vc with ModifiedFiles := vc.ModifiedFiles.insert q true } : VC) else vc).Commits
          = vc.Commits := by split <;> rfl
      have hmod : List.filter (modifiedNow H (if (vc.FileHashes.lookup q).getD "" ≠ cur then
          ({ vc with ModifiedFiles := vc.ModifiedFiles.insert q true } : VC) else vc)) l
          = List.filter (modifiedNow H vc) l := by
        congr 1; funext p; simp only [modifiedNow, hfh, hwd]
      have hsg : List.filter (stagedNow (if (vc.FileHashes.lookup q).getD "" ≠ cur then
          ({ vc with ModifiedFiles := vc.ModifiedFiles.insert q true } : VC) else vc)) l
          = List.filter (stagedNow vc) l := by
        congr 1; funext p; simp only [stagedNow, hst]
      rw [hwd] at e1 e5
      rw [hst] at e2
      rw [hfh] at e3
      rw [hcm] at e4
      rw [hmod] at e6
      rw [hsg] at e7
      refine ⟨e1, e2, e3, e4, ?_, ?_, ?_⟩
      · intro p hp
        rcases List.mem_cons.mp hp with rfl | hp
        · rw [hq]; rfl
        · exact e5 p hp
      · rw [e6]
        by_cases hne : (vc.FileHashes.lookup q).getD "" ≠ cur
        · have : modifiedNow H vc q = true := by simp [modifiedNow, hq, hne]
          simp [List.filter_cons, this, hne]
          split <;> simp
        · have : modifiedNow H vc q = false := by simp [modifiedNow, hq]; simpa using hne
          simp [List.filter_cons, this, hne]
          split <;> simp
      · rw [e7]
        by_cases hs : (vc.StagedFiles.lookup q).getD false = true
        · have : stagedNow vc q = true := hs
          simp [List.filter_cons, this, hs]
          split <;> simp
        · have : stagedNow vc q = false := by simpa [stagedNow] using hs
          simp [List.filter_cons, this, hs]
          split <;> simp

theorem statusWalk_isSome (H : String → String) (l : List String) :
    ∀ (r : StatusResult) (vc : VC), (∀ p ∈ l, (hashFile H vc.WorkDir p).isSome) →
      (statusWalk H l (r, vc)).isSome := by
  induction l with
  | nil => intro r vc _; rfl
  | cons q l ih =>
    intro r vc h
    unfold statusWalk
    obtain ⟨cur, hq⟩ := Option.isSome_iff_exists.mp (h q (List.mem_cons_self _ _))
    simp only [hq]
    apply ih
    intro p hp
    have hwd : (if (vc.FileHashes.lookup q).getD "" ≠ cur then
        ({ vc with ModifiedFiles := vc.ModifiedFiles.insert q true } : VC) else vc).WorkDir
        = vc.WorkDir := by split <;> rfl
    rw [hwd]
    exact h p (List.mem_cons_of_mem _ hp)

/-! ## Lemmas on `AddAll` and `Add` -/

theorem hashFile_eq (H : String → String) (wd : WorkDir) (p : String) (n : Node)
    (h : wd.files.lookup p = some n) :
    hashFile H wd p = if n.readable then some (H n.content) else none := by
  unfold hashFile WorkDir.readFile
  rw [h]
  cases hr : n.readable <;> simp [hr]

theorem hashFile_none_of_absent (H : String → String) (wd : WorkDir) (p : String)
    (h : wd.files.lookup p = none) : hashFile H wd p = none := by
  unfold hashFile WorkDir.readFile
  rw [h]
  rfl

/-- Effect of the walk of `AddAll` over a list of entries. -/
theorem addAll_fold (H : String → String) (l : List String) :
    ∀ vc : VC,
      (l.foldl (addAllVisit H) vc).WorkDir = vc.WorkDir ∧
      (l.foldl (addAllVisit H) vc).Commits = vc.Commits ∧
      (∀ p, p ∈ l →
        (l.foldl (addAllVisit H) vc).StagedFiles.lookup p = some true ∧
        (l.foldl (addAllVisit H) vc).ModifiedFiles.lookup p = some false ∧
        (l.foldl (addAllVisit H) vc).FileHashes.lookup p =
          some ((hashFile H vc.WorkDir p).getD "")) ∧
      (∀ p, p ∉ l →
        (l.foldl (addAllVisit H) vc).StagedFiles.lookup p = vc.StagedFiles.lookup p ∧
        (l.foldl (addAllVisit H) vc).ModifiedFiles.lookup p = vc.ModifiedFiles.lookup p ∧
        (l.foldl (addAllVisit H) vc).FileHashes.lookup p = vc.FileHashes.lookup p) := by
  induction l with
  | nil => intro vc; simp
  | cons q l ih =>
    intro vc
    rw [List.foldl_cons]
    obtain ⟨h1, h2, h3, h4⟩ := ih (addAllVisit H vc q)
    have hwd : (addAllVisit H vc q).WorkDir = vc.WorkDir := rfl
    refine ⟨h1.trans hwd, h2, ?_, ?_⟩
    · intro p hp
      by_cases hpl : p ∈ l
      · have := h3 p hpl
        rwa [hwd] at this
      · have hpq : p = q := by
          rcases List.mem_cons.mp hp with h | h
          · exact h
          · exact absurd h hpl
        subst hpq
        obtain ⟨a, b, c⟩ := h4 p hpl
        rw [a, b, c]
        simp [addAllVisit]
    · intro p hp
      have hpq : p ≠ q := fun h => hp (h ▸ List.mem_cons_self _ _)
      have hpl : p ∉ l := fun h => hp (List.mem_cons_of_mem _ h)
      obtain ⟨a, b, c⟩ := h4 p hpl
      rw [a, b, c]
      simp [addAllVisit, AList.lookup_insert_ne hpq]

/-- Effect of the walk inside `Add` for one name. -/
theorem addWalk_fold (H : String → String) (file : String) (l : List String) :
    ∀ vc : VC,
      (l.foldl (addWalkVisit H file) vc).WorkDir = vc.WorkDir ∧
      (l.foldl (addWalkVisit H file) vc).Commits = vc.Commits ∧
      (l.foldl (addWalkVisit H file) vc).StagedFiles = vc.StagedFiles ∧
      (l.foldl (addWalkVisit H file) vc).ModifiedFiles = vc.ModifiedFiles ∧
      (l.foldl (addWalkVisit H file) vc).FileHashes =
        if file ∈ l then vc.FileHashes.insert file ((hashFile H vc.WorkDir file).getD "")
        else vc.FileHashes := by
  induction l with
  | nil => intro vc; simp
  | cons q l ih =>
    intro vc
    rw [List.foldl_cons]
    obtain ⟨h1, h2, h3, h4, h5⟩ := ih (addWalkVisit H file vc q)
    by_cases hq : q = file
    · subst hq
      have e : addWalkVisit H q vc q =
          { vc with FileHashes := vc.FileHashes.insert q ((hashFile H vc.WorkDir q).getD "") } := by
        simp [addWalkVisit]
      rw [e] at h1 h2 h3 h4 h5
      rw [e]
      refine ⟨h1, h2, h3, h4, ?_⟩
      rw [h5]
      by_cases hl : q ∈ l
      · simp [hl, AList.insert_insert]
      · simp [hl]
    · have e : addWalkVisit H file vc q = vc := by
        simp [addWalkVisit, hq]
      rw [e] at h1 h2 h3 h4 h5
      rw [e]
      refine ⟨h1, h2, h3, h4, ?_⟩
      rw [h5]
      have : (file ∈ q :: l) ↔ file ∈ l := by
        simp [List.mem_cons, Ne.symm hq]
      by_cases hl : file ∈ l
      · rw [if_pos hl, if_pos (this.mpr hl)]
      · rw [if_neg hl, if_neg (fun h => hl (this.mp h))]

theorem addVisit_effect (H : String → String) (vc : VC) (file : String) :
    (addVisit H vc file).WorkDir = vc.WorkDir ∧
    (addVisit H vc file).Commits = vc.Commits ∧
    (addVisit H vc file).StagedFiles = vc.StagedFiles.insert file true ∧
    (addVisit H vc file).ModifiedFiles = vc.ModifiedFiles.insert file false ∧
    (∀ p, (addVisit H vc file).FileHashes.lookup p =
      if p = file then some (addedHash H vc.WorkDir file) else vc.FileHashes.lookup p) := by
  unfold addVisit
  obtain ⟨h1, h2, h3, h4, h5⟩ := addWalk_fold H file vc.WorkDir.files.keys
    { vc with
      StagedFiles := vc.StagedFiles.insert file true
      ModifiedFiles := vc.ModifiedFiles.insert file false
      FileHashes := vc.FileHashes.insert file ((hashFileCwd H vc.WorkDir file).getD "") }
  refine ⟨h1, h2, h3, h4, ?_⟩
  intro p
  simp only at h5 ⊢
  rw [h5]
  unfold addedHash
  by_cases hp : p = file
  · subst hp
    by_cases hk : p ∈ vc.WorkDir.files.keys
    · simp [hk]
    · simp [hk]
  · by_cases hk : file ∈ vc.WorkDir.files.keys
    · simp [hk, hp, AList.lookup_insert_ne hp]
    · simp [hk, hp, AList.lookup_insert_ne hp]

/-- Effect of `Add` over a list of names. -/
theorem add_fold (H : String → String) (files : List String) :
    ∀ vc : VC,
      (files.foldl (addVisit H) vc).WorkDir = vc.WorkDir ∧
      (files.foldl (addVisit H) vc).Commits = vc.Commits ∧
      (∀ p, p ∈ files →
        (files.foldl (addVisit H) vc).StagedFiles.lookup p = some true ∧
        (files.foldl (addVisit H) vc).ModifiedFiles.lookup p = some false ∧
        (files.foldl (addVisit H) vc).FileHashes.lookup p = some (addedHash H vc.WorkDir p)) ∧
      (∀ p, p ∉ files →
        (files.foldl (addVisit H) vc).StagedFiles.lookup p = vc.StagedFiles.lookup p ∧
        (files.foldl (addVisit H) vc).ModifiedFiles.lookup p = vc.ModifiedFiles.lookup p ∧
        (files.foldl (addVisit H) vc).FileHashes.lookup p = vc.FileHashes.lookup p) := by
  induction files with
  | nil => intro vc; simp
  | cons q l ih =>
    intro vc
    rw [List.foldl_cons]
    obtain ⟨h1, h2, h3, h4⟩ := ih (addVisit H vc q)
    obtain ⟨v1, v2, v3, v4, v5⟩ := addVisit_effect H vc q
    refine ⟨h1.trans v1, h2.trans v2, ?_, ?_⟩
    · intro p hp
      by_cases hpl : p ∈ l
      · have := h3 p hpl
        rwa [v1] at this
      · have hpq : p = q := by
          rcases List.mem_cons.mp hp with h | h
          · exact h
          · exact absurd h hpl
        subst hpq
        obtain ⟨a, b, c⟩ := h4 p hpl
        rw [a, b, c, v3, v4, v5]
        simp
    · intro p hp
      have hpq : p ≠ q := fun h => hp (h ▸ List.mem_cons_self _ _)
      have hpl : p ∉ l := fun h => hp (List.mem_cons_of_mem _ h)
      obtain ⟨a, b, c⟩ := h4 p hpl
      rw [a, b, c, v3, v4, v5]
      simp [AList.lookup_insert_ne hpq, hpq]

/-! ## Lemmas on the results of `Status` -/

theorem toyHash_ne_empty (s : String) : toyHash s ≠ "" := by
  intro h
  have := congrArg String.length h
  simp only [toyHash, String.length_append] at this
  have h5 : "sha1:".length = 5 := by decide
  have h0 : "".length = 0 := by decide
  omega

theorem hashFile_isSome_iff (H : String → String) (wd : WorkDir) (p : String) :
    (hashFile H wd p).isSome ↔ ∃ n, wd.files.lookup p = some n ∧ n.readable = true := by
  unfold hashFile
  rw [Option.isSome_map']
  exact readFile_isSome_iff wd p

theorem status_isSome_iff (H : String → String) (vc : VC) :
    (vc.Status H).isSome ↔ ∀ p n, vc.WorkDir.files.lookup p = some n → n.readable = true := by
  constructor
  · intro h p n hp
    obtain ⟨⟨r, vc1⟩, hs⟩ := Option.isSome_iff_exists.mp h
    obtain ⟨_, _, _, _, e5, _, _⟩ := statusWalk_some H _ _ _ _ _ hs
    have hk : p ∈ vc.WorkDir.files.keys := AList.mem_keys.mp (AList.lookup_isSome.mp (by rw [hp]; rfl))
    obtain ⟨n', hn', hr⟩ := (hashFile_isSome_iff H _ p).mp (e5 p hk)
    rw [hp] at hn'
    cases hn'
    exact hr
  · intro h
    apply statusWalk_isSome
    intro p hp
    obtain ⟨n, hn⟩ := Option.isSome_iff_exists.mp (AList.lookup_isSome.mpr (AList.mem_keys.mpr hp))
    exact (hashFile_isSome_iff H _ p).mpr ⟨n, hn, h p n hn⟩

/-- A path that `Status` lists as modified is an entry of the tree that could be
hashed and whose hash differs from the cached one. -/
theorem status_modified_sound (H : String → String) (vc : VC) (r : StatusResult) (vc1 : VC)
    (hs : vc.Status H = some (r, vc1)) (p : String) (hp : p ∈ r.ModifiedFiles) :
    ∃ n, vc.WorkDir.files.lookup p = some n ∧ n.readable = true ∧
      (vc.FileHashes.lookup p).getD "" ≠ H n.content := by
  have hall := (status_isSome_iff H vc).mp (by rw [hs]; rfl)
  obtain ⟨_, _, _, _, _, e6, _⟩ := statusWalk_some H _ _ _ _ _ hs
  rw [e6] at hp
  simp only [List.nil_append, List.mem_filter] at hp
  obtain ⟨hk, hm⟩ := hp
  obtain ⟨n, hn⟩ := Option.isSome_iff_exists.mp
    (AList.lookup_isSome.mpr (AList.mem_keys.mpr hk))
  refine ⟨n, hn, hall p n hn, ?_⟩
  simpa [modifiedNow, hashFile_eq H _ p n hn, hall p n hn] using hm

/-! ## Lemmas on the frame of `Checkout` -/

/-- `revertToCommit` changes nothing but the working tree. -/
theorem revertToCommit_frame (vc : VC) (i : Int) :
    (vc.revertToCommit i).2.StagedFiles = vc.StagedFiles ∧
    (vc.revertToCommit i).2.ModifiedFiles = vc.ModifiedFiles ∧
    (vc.revertToCommit i).2.FileHashes = vc.FileHashes ∧
    (vc.revertToCommit i).2.Commits = vc.Commits := by
  unfold VC.revertToCommit
  by_cases h : i < 0 ∨ i ≥ vc.Commits.length
  · rw [dif_pos h]
    exact ⟨rfl, rfl, rfl, rfl⟩
  · rw [dif_neg h]
    simp only [VC.clearCurrentState]
    cases (clearWalk vc.WorkDir.files.keys vc.WorkDir).1 <;> exact ⟨rfl, rfl, rfl, rfl⟩

/-- On an index outside the log `revertToCommit` fails and changes nothing. -/
theorem revertToCommit_out_of_range (vc : VC) (i : Int)
    (h : i < 0 ∨ i ≥ vc.Commits.length) : vc.revertToCommit i = (some .invalidIndex, vc) := by
  unfold VC.revertToCommit
  rw [dif_pos h]

/-- `Checkout` changes nothing but the working tree. -/
theorem checkout_frame (vc : VC) (commitRef : String) (res : Except Err WorkDir) (vc1 : VC)
    (h : vc.Checkout commitRef = some (res, vc1)) :
    vc1.StagedFiles = vc.StagedFiles ∧ vc1.ModifiedFiles = vc.ModifiedFiles ∧
    vc1.FileHashes = vc.FileHashes ∧ vc1.Commits = vc.Commits := by
  unfold VC.Checkout at h
  cases hp : vc.parseCommitRef commitRef with
  | error e =>
    simp only [hp, Option.some.injEq, Prod.mk.injEq] at h
    obtain ⟨_, rfl⟩ := h
    exact ⟨rfl, rfl, rfl, rfl⟩
  | ok i =>
    simp only [hp] at h
    have hf := revertToCommit_frame vc i
    rcases hr : vc.revertToCommit i with ⟨e, vc2⟩
    rw [hr] at hf h
    cases e with
    | some e =>
      simp only [Option.some.injEq, Prod.mk.injEq] at h
      obtain ⟨_, rfl⟩ := h
      exact hf
    | none =>
      simp only at h
      cases hc : vc2.WorkDir.Clone with
      | none => simp [hc] at h
      | some c =>
        simp only [hc, Option.some.injEq, Prod.mk.injEq] at h
        obtain ⟨_, rfl⟩ := h
        exact hf

/-! ## Further lemmas on `Status`, `Init` and `Commit` -/


/-- The modified flags after the walk of `Status`. -/
theorem statusWalk_modifiedFiles (H : String → String) (l : List String) :
    ∀ (r : StatusResult) (vc : VC) (r1 : StatusResult) (vc1 : VC),
      statusWalk H l (r, vc) = some (r1, vc1) →
        ∀ p, vc1.ModifiedFiles.lookup p =
          if p ∈ l ∧ modifiedNow H vc p = true then some true else vc.ModifiedFiles.lookup p := by
  induction l with
  | nil =>
    intro r vc r1 vc1 h p
    simp only [statusWalk, Option.some.injEq, Prod.mk.injEq] at h
    obtain ⟨_, rfl⟩ := h
    simp
  | cons q l ih =>
    intro r vc r1 vc1 h p
    unfold statusWalk at h
    cases hq : hashFile H vc.WorkDir q with
    | none => simp [hq] at h
    | some cur =>
      simp only [hq] at h
      have hi := ih _ _ _ _ h p
      have hmq : modifiedNow H vc q = decide ((vc.FileHashes.lookup q).getD "" ≠ cur) := by
        simp [modifiedNow, hq]
      by_cases hne : (vc.FileHashes.lookup q).getD "" ≠ cur
      · rw [if_pos hne] at hi
        have hsame : modifiedNow H
            ({ vc with ModifiedFiles := vc.ModifiedFiles.insert q true } : VC) p
            = modifiedNow H vc p := rfl
        rw [hsame] at hi
        rw [hi]
        have hq1 : modifiedNow H vc q = true := by rw [hmq]; simpa using hne
        by_cases hpl : p ∈ l ∧ modifiedNow H vc p = true
        · rw [if_pos hpl, if_pos ⟨List.mem_cons_of_mem _ hpl.1, hpl.2⟩]
        · rw [if_neg hpl]
          by_cases hpq : p = q
          · subst hpq
            rw [if_pos ⟨List.mem_cons_self _ _, hq1⟩]
            simp
          · rw [if_neg (by
              rintro ⟨hm, hmod⟩
              rcases List.mem_cons.mp hm with h1 | h1
              · exact hpq h1
              · exact hpl ⟨h1, hmod⟩)]
            simp [AList.lookup_insert_ne hpq]
      · rw [if_neg hne] at hi
        rw [hi]
        have hq0 : modifiedNow H vc q = false := by rw [hmq]; simpa using hne
        by_cases hpl : p ∈ l ∧ modifiedNow H vc p = true
        · rw [if_pos hpl, if_pos ⟨List.mem_cons_of_mem _ hpl.1, hpl.2⟩]
        · rw [if_neg hpl, if_neg]
          rintro ⟨hm, hmod⟩
          rcases List.mem_cons.mp hm with h1 | h1
          · subst h1
            rw [hq0] at hmod
            cases hmod
          · exact hpl ⟨h1, hmod⟩



theorem init_commits (H : String → String) (wd : WorkDir) (vc : VC)
    (h : Init H wd = some vc) : vc.Commits = [] := by
  unfold Init at h
  cases hh : computeInitialHashes H wd wd.files.keys ∅ with
  | none => simp [hh] at h
  | some hashes =>
    simp only [hh, Option.some.injEq] at h
    rw [← h]

/-! ## Lemmas on the keys of the maps -/

theorem mem_of_lookup_eq_some {β : Type} (m : GoMap β) (p : String) (b : β)
    (h : m.lookup p = some b) : p ∈ m :=
  AList.lookup_isSome.mp (by rw [h]; rfl)

theorem mem_of_lookup_eq {β : Type} (m m1 : GoMap β) (p : String)
    (h : m1.lookup p = m.lookup p) (hp : p ∈ m) : p ∈ m1 := by
  rw [← AList.lookup_isSome] at hp ⊢
  rw [h]
  exact hp

theorem computeInitialHashes_keys (H : String → String) (wd : WorkDir) (l : List String) :
    ∀ (hashes res : GoMap String), computeInitialHashes H wd l hashes = some res →
      ∀ p, (p ∈ l ∨ p ∈ hashes) → p ∈ res := by
  induction l with
  | nil =>
    intro hashes res h p hp
    simp only [computeInitialHashes, Option.some.injEq] at h
    subst h
    rcases hp with hp | hp
    · cases hp
    · exact hp
  | cons q l ih =>
    intro hashes res h p hp
    unfold computeInitialHashes at h
    cases hq : hashFile H wd q with
    | none => simp [hq] at h
    | some hash =>
      simp only [hq] at h
      apply ih _ _ h p
      rcases hp with hp | hp
      · rcases List.mem_cons.mp hp with rfl | hp
        · right; simp
        · left; exact hp
      · right
        rw [AList.mem_insert]
        exact Or.inr hp

theorem initialStages_keys (l : List String) :
    ∀ (acc : GoMap Bool) (p : String), (p ∈ l ∨ p ∈ acc) →
      p ∈ l.foldl (fun staged rel => staged.insert rel false) acc := by
  induction l with
  | nil =>
    intro acc p hp
    rcases hp with hp | hp
    · cases hp
    · exact hp
  | cons q l ih =>
    intro acc p hp
    rw [List.foldl_cons]
    apply ih
    rcases hp with hp | hp
    · rcases List.mem_cons.mp hp with rfl | hp
      · right; simp
      · left; exact hp
    · right
      rw [AList.mem_insert]
      exact Or.inr hp

theorem init_keys (H : String → String) (wd : WorkDir) (vc : VC) (h : Init H wd = some vc) :
    ∀ p ∈ wd.files.keys, p ∈ vc.FileHashes ∧ p ∈ vc.StagedFiles := by
  intro p hp
  unfold Init at h
  cases hh : computeInitialHashes H wd wd.files.keys ∅ with
  | none => simp [hh] at h
  | some hashes =>
    simp only [hh, Option.some.injEq] at h
    subst h
    exact ⟨computeInitialHashes_keys H wd _ _ _ hh p (Or.inl hp),
      initialStages_keys _ _ p (Or.inl hp)⟩

theorem commit_fold_staged_keys (wd : WorkDir) (l : List (Σ _ : String, Bool)) :
    ∀ (acc : GoMap String × GoMap Bool) (p : String), p ∈ acc.2 →
      p ∈ (l.foldl (fun r a => commitVisit wd r a.1 a.2) acc).2 := by
  induction l with
  | nil => intro acc p hp; exact hp
  | cons e l ih =>
    intro acc p hp
    rw [List.foldl_cons]
    apply ih
    obtain ⟨f, b⟩ := e
    unfold commitVisit
    cases b with
    | false =>
      simp only [Bool.false_eq_true, if_false]
      rw [AList.mem_insert]
      exact Or.inr hp
    | true =>
      simp only [if_true]
      cases wd.readFile f with
      | none => exact hp
      | some c =>
        simp only
        rw [AList.mem_insert]
        exact Or.inr hp

/-- `Commit` drops no key of `StagedFiles` and leaves `FileHashes` as it is. -/
theorem commit_keys (vc : VC) (message : String) (p : String) :
    (p ∈ vc.StagedFiles → p ∈ (vc.Commit message).StagedFiles) ∧
    (vc.Commit message).FileHashes = vc.FileHashes :=
  ⟨fun hp => commit_fold_staged_keys vc.WorkDir _ _ p hp, rfl⟩

/-- Resolution of `~N` inside the log. -/
theorem parseCommitRef_tilde_of_lt (vc : VC) (hlen : vc.Commits.length < 2 ^ 63) (N : Nat)
    (hN : N + 1 ≤ vc.Commits.length) :
    vc.parseCommitRef ("~" ++ toString N) = .ok ((vc.Commits.length : Int) - 1 - N) := by
  unfold VC.parseCommitRef
  rw [data_tilde_toString]
  simp only [atoiChars_toDigits N (by omega)]
  have h2 : (2 : Int) ^ 63 = 9223372036854775808 := by norm_num
  have h3 : (2 : Nat) ^ 63 = 9223372036854775808 := by norm_num
  rw [wrapInt_eq ((vc.Commits.length : Int) - 1) (by omega) (by omega)]
  rw [wrapInt_eq _ (by omega) (by omega)]

/-! ## Reference resolution: theorems -/

/-- C4: on a log of length `len`, the reference `~N` with `N ≤ len - 1` resolves
to index `(len - 1) - N` without error; in particular `~0` resolves to the last
commit and `~(len-1)` to index 0. -/
theorem parseCommitRef_tilde_in_range (vc : VC) (hlen : vc.Commits.length < 2 ^ 63) :
    (∀ N : Nat, N + 1 ≤ vc.Commits.length →
      vc.parseCommitRef ("~" ++ toString N) = .ok ((vc.Commits.length : Int) - 1 - N)) ∧
    (1 ≤ vc.Commits.length →
      vc.parseCommitRef "~0" = .ok ((vc.Commits.length : Int) - 1) ∧
      vc.parseCommitRef ("~" ++ toString (vc.Commits.length - 1)) = .ok 0) := by
  have main : ∀ N : Nat, N + 1 ≤ vc.Commits.length →
      vc.parseCommitRef ("~" ++ toString N) = .ok ((vc.Commits.length : Int) - 1 - N) := by
    intro N hN
    unfold VC.parseCommitRef
    rw [data_tilde_toString]
    simp only [atoiChars_toDigits N (by omega)]
    have h2 : (2 : Int) ^ 63 = 9223372036854775808 := by norm_num
    have h3 : (2 : Nat) ^ 63 = 9223372036854775808 := by norm_num
    rw [wrapInt_eq ((vc.Commits.length : Int) - 1) (by omega) (by omega)]
    rw [wrapInt_eq _ (by omega) (by omega)]
  refine ⟨main, fun h1 => ⟨?_, ?_⟩⟩
  · have := main 0 (by omega)
    simpa using this
  · have := main (vc.Commits.length - 1) (by omega)
    rw [this]
    congr 1
    omega

/-- C4, on a log of three commits. -/
theorem parseCommitRef_tilde_in_range_witness :
    (logOf 3).Commits.length < 2 ^ 63 ∧
    (logOf 3).parseCommitRef ("~" ++ toString 1) = .ok 1 ∧
    (logOf 3).parseCommitRef "~0" = .ok 2 :=
  ⟨by decide,
   ((parseCommitRef_tilde_in_range (logOf 3) (by decide)).1 1 (by decide)),
   ((parseCommitRef_tilde_in_range (logOf 3) (by decide)).2 (by decide)).1⟩

/-- C5: on a log of one commit the reference `~1` (N = len) is resolved without
error to the index -1, outside `[0, len-1]`; the `^` branch rejects the same
offset. -/
theorem parseCommitRef_tilde_beyond_log :
    (logOf 1).parseCommitRef "~1" = .ok (-1) ∧
    (logOf 1).parseCommitRef "^" = .error .refOutOfRange := by
  decide

/-- C6: the malformed reference `^x` is resolved without error to index 0 on a
log of three commits, and `Checkout("^x")` then succeeds; `^~1` is resolved to
index 0 on a log of four commits, and `~-1` to index 1 on a log of one commit. -/
theorem parseCommitRef_accepts_malformed :
    (logOf 3).parseCommitRef "^x" = .ok 0 ∧
    ((logOf 3).Checkout "^x").map (fun x => x.1.toOption.isSome) = some true ∧
    (logOf 4).parseCommitRef "^~1" = .ok 0 ∧
    (logOf 1).parseCommitRef "~-1" = .ok 1 := by
  decide

/-- C7: on a log of length `len`, the reference made of `K ≥ 1` characters `^`
resolves to `len - 1 - K` when that is non-negative and fails with the
out-of-range error otherwise; every index returned lies in `[0, len-1]`. -/
theorem parseCommitRef_carets (vc : VC) (K : Nat) (hK : 1 ≤ K)
    (hlen : vc.Commits.length < 2 ^ 63) (hK63 : K < 2 ^ 63) :
    vc.parseCommitRef (String.mk (List.replicate K '^')) =
      (if 0 ≤ (vc.Commits.length : Int) - 1 - K then .ok ((vc.Commits.length : Int) - 1 - K)
       else .error .refOutOfRange) ∧
    ∀ i, vc.parseCommitRef (String.mk (List.replicate K '^')) = .ok i →
      0 ≤ i ∧ i < vc.Commits.length := by
  have h2 : (2 : Int) ^ 63 = 9223372036854775808 := by norm_num
  have h3 : (2 : Nat) ^ 63 = 9223372036854775808 := by norm_num
  have hval : vc.parseCommitRef (String.mk (List.replicate K '^')) =
      (if 0 ≤ (vc.Commits.length : Int) - 1 - K then .ok ((vc.Commits.length : Int) - 1 - K)
       else .error .refOutOfRange) := by
    obtain ⟨k, rfl⟩ : ∃ k, K = k + 1 := ⟨K - 1, by omega⟩
    unfold VC.parseCommitRef
    simp only [List.replicate_succ]
    rw [← List.replicate_succ, utf8ByteSize_replicate]
    rw [wrapInt_eq ((vc.Commits.length : Int) - ((k + 1 : Nat) : Int)) (by omega) (by omega)]
    rw [wrapInt_eq _ (by omega) (by omega)]
    by_cases h : 0 ≤ (vc.Commits.length : Int) - 1 - ((k + 1 : Nat) : Int)
    · rw [if_pos h, if_neg (by omega)]
      congr 1
      omega
    · rw [if_neg h, if_pos (by omega)]
  refine ⟨hval, ?_⟩
  intro i hi
  rw [hval] at hi
  by_cases h : 0 ≤ (vc.Commits.length : Int) - 1 - K
  · rw [if_pos h] at hi
    injection hi with hi
    omega
  · rw [if_neg h] at hi
    cases hi

/-- C7, on a log of three commits with `^^`. -/
theorem parseCommitRef_carets_witness :
    (logOf 3).parseCommitRef (String.mk (List.replicate 2 '^')) = .ok 0 := by
  have h := (parseCommitRef_carets (logOf 3) 2 (by decide) (by decide) (by decide)).1
  rw [h]
  decide

/-! ## Commit: theorems -/

/-- C1 as stated fails: starting from `Init` on an empty tree, `Add("gone.txt")`
stages a path that is not a file under the root; the path is staged when
`Commit` is called, yet the snapshot of the commit has no key. -/
theorem commit_snapshot_misses_staged_path :
    (Init toyHash emptyTree).map
        (fun vc => (vc.Add toyHash ["gone.txt"]).StagedFiles.lookup "gone.txt") =
      some (some true) ∧
    (Init toyHash emptyTree).map
        (fun vc => ((vc.Add toyHash ["gone.txt"]).Commit "m").Commits.map
          (fun c => c.FileSnap.keys)) = some [[]] ∧
    stagedButGone.StagedFiles.lookup "gone.txt" = some true ∧
    (stagedButGone.Commit "m").Commits.map (fun c => c.FileSnap.keys) = [[]] := by
  decide

/-- C1, amended: `Commit` appends one commit whose snapshot has as keys exactly
the paths that were staged before the call and whose content could be read from
the working tree at the call. -/
theorem commit_snapshot_keys (vc : VC) (message : String) :
    ∃ snap : GoMap String,
      (vc.Commit message).Commits = vc.Commits ++ [⟨message, snap⟩] ∧
      ∀ p, p ∈ snap ↔
        (vc.StagedFiles.lookup p = some true ∧ (vc.WorkDir.readFile p).isSome) := by
  obtain ⟨snap, hc, hl⟩ := commit_snapshot vc message
  refine ⟨snap, hc, fun p => ?_⟩
  rw [← AList.lookup_isSome, hl]
  by_cases hs : vc.StagedFiles.lookup p = some true
  · simp [hs]
  · simp [hs]

/-- C2: starting from `Init` on an empty tree, `Add("gone.txt")` stages a path
that cannot be read; after `Commit` its staged flag is still true. -/
theorem commit_leaves_unread_path_staged :
    (Init toyHash emptyTree).map
        (fun vc => (vc.Add toyHash ["gone.txt"]).StagedFiles.lookup "gone.txt") =
      some (some true) ∧
    (Init toyHash emptyTree).map
        (fun vc => ((vc.Add toyHash ["gone.txt"]).Commit "m").StagedFiles.lookup "gone.txt") =
      some (some true) ∧
    (stagedButGone.Commit "m").StagedFiles.lookup "gone.txt" = some true := by
  decide

/-! ## Checkout: theorems -/

/-- C3: when the reference resolves to an index `i` inside the log and no remove
and no write fails, `Checkout` returns a working tree whose files are exactly
the keys of the snapshot of `Commits[i]`, each with the recorded content,
whatever the tree held before. -/
theorem checkout_restores_snapshot (vc : VC) (commitRef : String) (i : Int) (commit : Commit)
    (href : vc.parseCommitRef commitRef = .ok i) (h0 : 0 ≤ i)
    (hc : vc.Commits[i.toNat]? = some commit)
    (hrm : ∀ p ∈ vc.WorkDir.files.keys, vc.WorkDir.failRemove p = false)
    (hwr : ∀ p ∈ commit.FileSnap.keys, vc.WorkDir.failWrite p = false) :
    ∃ (clone : WorkDir) (vc1 : VC), vc.Checkout commitRef = some (.ok clone, vc1) ∧
      (∀ p, p ∈ clone.files ↔ p ∈ commit.FileSnap) ∧
      (∀ p c, commit.FileSnap.lookup p = some c → clone.readFile p = some c) := by
  obtain ⟨wd2, hrev, hk, hcont, hread⟩ := revertToCommit_ok vc i commit h0 hc hrm hwr
  refine ⟨wd2, { vc with WorkDir := wd2 }, ?_, hk, hcont⟩
  unfold VC.Checkout
  simp only [href, hrev, clone_of_readable wd2 hread]

/-- C3, on a tree with a stray file and an outdated `a.txt`: the tree returned
by `Checkout("~0")` holds `a.txt` = "hello" and nothing else. -/
theorem checkout_restores_snapshot_witness :
    dirtyRepo.parseCommitRef "~0" = .ok 0 ∧
    (dirtyRepo.Checkout "~0").map (fun x => x.1.toOption.map (fun c => c.files.entries)) =
      some (some [⟨"a.txt", ⟨"hello", true⟩⟩]) ∧
    ∃ (clone : WorkDir) (vc1 : VC), dirtyRepo.Checkout "~0" = some (.ok clone, vc1) ∧
      (∀ p, p ∈ clone.files ↔ p ∈ (∅ : GoMap String).insert "a.txt" "hello") ∧
      (∀ p c, ((∅ : GoMap String).insert "a.txt" "hello").lookup p = some c →
        clone.readFile p = some c) :=
  ⟨by decide, by decide,
   checkout_restores_snapshot dirtyRepo "~0" 0 ⟨"first", (∅ : GoMap String).insert "a.txt" "hello"⟩
     (by decide) (by decide) rfl (by decide) (by decide)⟩

/-! ## Status and staging: theorems -/

/-- C8: `Status` panics exactly when some entry of the tree cannot be read;
when it returns, a path is in the modified list iff it is an entry of the tree
and the hash of its content differs from its hash-cache entry (a missing entry
counts as different), and a path is in the staged list iff it is an entry of
the tree whose staged flag is true.  Stated for a hash function that never
returns the empty string, as SHA-1 in hexadecimal does not. -/
theorem status_lists (H : String → String) (hH : ∀ s, H s ≠ "") (vc : VC) :
    (vc.Status H = none ↔ ∃ p n, vc.WorkDir.files.lookup p = some n ∧ n.readable = false) ∧
    ∀ r vc1, vc.Status H = some (r, vc1) →
      (∀ p, p ∈ r.ModifiedFiles ↔
        ∃ n, vc.WorkDir.files.lookup p = some n ∧ vc.FileHashes.lookup p ≠ some (H n.content)) ∧
      (∀ p, p ∈ r.StagedFiles ↔
        (p ∈ vc.WorkDir.files ∧ vc.StagedFiles.lookup p = some true)) := by
  constructor
  · rw [← Option.not_isSome_iff_eq_none, status_isSome_iff]
    push_neg
    constructor
    · rintro ⟨p, n, h1, h2⟩
      exact ⟨p, n, h1, by simpa using h2⟩
    · rintro ⟨p, n, h1, h2⟩
      exact ⟨p, n, h1, by simp [h2]⟩
  · intro r vc1 hs
    have hall := (status_isSome_iff H vc).mp (by rw [hs]; rfl)
    obtain ⟨_, _, _, _, _, e6, e7⟩ := statusWalk_some H _ _ _ _ _ hs
    constructor
    · intro p
      rw [e6]
      simp only [List.nil_append, List.mem_filter]
      constructor
      · rintro ⟨hk, hm⟩
        obtain ⟨n, hn⟩ := Option.isSome_iff_exists.mp
          (AList.lookup_isSome.mpr (AList.mem_keys.mpr hk))
        refine ⟨n, hn, ?_⟩
        intro hfh
        simp [modifiedNow, hashFile_eq H _ p n hn, hall p n hn, hfh] at hm
      · rintro ⟨n, hn, hne⟩
        refine ⟨AList.mem_keys.mp (AList.lookup_isSome.mp (by rw [hn]; rfl)), ?_⟩
        simp only [modifiedNow, hashFile_eq H _ p n hn, hall p n hn, if_true, Option.getD_some,
          decide_eq_true_eq]
        cases hl : vc.FileHashes.lookup p with
        | none => simpa using (hH n.content).symm
        | some v =>
          rw [hl] at hne
          simpa using hne
    · intro p
      rw [e7]
      simp only [List.nil_append, List.mem_filter, stagedNow]
      rw [← AList.mem_keys]
      cases hl : vc.StagedFiles.lookup p with
      | none => simp
      | some b => cases b <;> simp

/-- C8, on a tree with an unchanged staged file, an edited file and a file that
was never hashed. -/
theorem status_lists_witness :
    (∀ s, toyHash s ≠ "") ∧
    (editedRepo.Status toyHash).map (fun x => (x.1.ModifiedFiles, x.1.StagedFiles)) =
      some (["c.txt", "b.txt"], ["a.txt"]) ∧
    ∀ r vc1, editedRepo.Status toyHash = some (r, vc1) →
      (∀ p, p ∈ r.ModifiedFiles ↔
        ∃ n, editedRepo.WorkDir.files.lookup p = some n ∧
          editedRepo.FileHashes.lookup p ≠ some (toyHash n.content)) ∧
      (∀ p, p ∈ r.StagedFiles ↔
        (p ∈ editedRepo.WorkDir.files ∧ editedRepo.StagedFiles.lookup p = some true)) :=
  ⟨toyHash_ne_empty, by decide, (status_lists toyHash toyHash_ne_empty editedRepo).2⟩

/-- C9: when `Status` is called right after `AddAll`, the modified list it
returns is empty; when it is called right after `Add(files)`, no path of
`files` is in the modified list it returns; and in a tree whose entries can all
be read, `Status` does return in both cases. -/
theorem status_after_staging (H : String → String) (vc : VC) :
    (∀ r vc1, (vc.AddAll H).Status H = some (r, vc1) → r.ModifiedFiles = []) ∧
    (∀ files r vc1, (vc.Add H files).Status H = some (r, vc1) →
      ∀ p ∈ files, p ∉ r.ModifiedFiles) ∧
    ((∀ p n, vc.WorkDir.files.lookup p = some n → n.readable = true) →
      (∃ r vc1, (vc.AddAll H).Status H = some (r, vc1)) ∧
      ∀ files, ∃ r vc1, (vc.Add H files).Status H = some (r, vc1)) := by
  refine ⟨?_, ?_, ?_⟩
  · intro r vc1 hs
    obtain ⟨a1, _, a3, _⟩ := addAll_fold H vc.WorkDir.files.keys vc
    apply List.eq_nil_iff_forall_not_mem.mpr
    intro p hp
    obtain ⟨n, hn, hr, hne⟩ := status_modified_sound H _ r vc1 hs p hp
    have hn' : vc.WorkDir.files.lookup p = some n := by
      have : (vc.AddAll H).WorkDir = vc.WorkDir := a1
      rwa [this] at hn
    have hk : p ∈ vc.WorkDir.files.keys :=
      AList.mem_keys.mp (AList.lookup_isSome.mp (by rw [hn']; rfl))
    have hfh : (vc.AddAll H).FileHashes.lookup p = some ((hashFile H vc.WorkDir p).getD "") :=
      (a3 p hk).2.2
    rw [hfh, hashFile_eq H _ p n hn'] at hne
    simp [hr] at hne
  · intro files r vc1 hs p hpf hp
    obtain ⟨a1, _, a3, _⟩ := add_fold H files vc
    obtain ⟨n, hn, hr, hne⟩ := status_modified_sound H _ r vc1 hs p hp
    have hn' : vc.WorkDir.files.lookup p = some n := by
      have : (vc.Add H files).WorkDir = vc.WorkDir := a1
      rwa [this] at hn
    have hk : p ∈ vc.WorkDir.files.keys :=
      AList.mem_keys.mp (AList.lookup_isSome.mp (by rw [hn']; rfl))
    have hfh : (vc.Add H files).FileHashes.lookup p = some (addedHash H vc.WorkDir p) :=
      (a3 p hpf).2.2
    rw [hfh] at hne
    simp [addedHash, hk, hashFile_eq H _ p n hn', hr] at hne
  · intro hall
    constructor
    · have h : ((vc.AddAll H).Status H).isSome := by
        rw [status_isSome_iff]
        have : (vc.AddAll H).WorkDir = vc.WorkDir := (addAll_fold H _ vc).1
        rw [this]
        exact hall
      obtain ⟨⟨r, vc1⟩, hs⟩ := Option.isSome_iff_exists.mp h
      exact ⟨r, vc1, hs⟩
    · intro files
      have h : ((vc.Add H files).Status H).isSome := by
        rw [status_isSome_iff]
        have : (vc.Add H files).WorkDir = vc.WorkDir := (add_fold H files vc).1
        rw [this]
        exact hall
      obtain ⟨⟨r, vc1⟩, hs⟩ := Option.isSome_iff_exists.mp h
      exact ⟨r, vc1, hs⟩

/-- C9, on a tree with an edited and a never-hashed file: after `AddAll` the
modified list is empty, and after `Add` of `b.txt` that path is not listed. -/
theorem status_after_staging_witness :
    ((editedRepo.AddAll toyHash).Status toyHash).map (fun x => x.1.ModifiedFiles) = some [] ∧
    ((editedRepo.Add toyHash ["b.txt"]).Status toyHash).map (fun x => x.1.ModifiedFiles) =
      some ["c.txt"] ∧
    (∀ r vc1, (editedRepo.AddAll toyHash).Status toyHash = some (r, vc1) →
      r.ModifiedFiles = []) :=
  ⟨by decide, by decide, (status_after_staging toyHash editedRepo).1⟩

/-- C10 as stated fails: `a.txt` is in the tree with content "hello" but cannot
be read; after `AddAll` its hash-cache entry is the empty string, not the hash
of its content. -/
theorem addAll_unreadable_hash_empty :
    unreadableRepo.WorkDir.files.lookup "a.txt" = some ⟨"hello", false⟩ ∧
    (unreadableRepo.AddAll toyHash).FileHashes.lookup "a.txt" = some "" ∧
    toyHash "hello" ≠ "" := by
  decide

/-- C10, amended: after `AddAll` every entry of the tree is staged, flagged not
modified, and has as hash-cache entry the hash of its content when the content
can be read and the empty string when it cannot; the entries of the three maps
for paths that are not in the tree are as before. -/
theorem addAll_effect (H : String → String) (vc : VC) :
    (∀ p n, vc.WorkDir.files.lookup p = some n →
      (vc.AddAll H).StagedFiles.lookup p = some true ∧
      (vc.AddAll H).ModifiedFiles.lookup p = some false ∧
      (vc.AddAll H).FileHashes.lookup p = some (if n.readable then H n.content else "")) ∧
    (∀ p, p ∉ vc.WorkDir.files →
      (vc.AddAll H).StagedFiles.lookup p = vc.StagedFiles.lookup p ∧
      (vc.AddAll H).ModifiedFiles.lookup p = vc.ModifiedFiles.lookup p ∧
      (vc.AddAll H).FileHashes.lookup p = vc.FileHashes.lookup p) := by
  obtain ⟨_, _, a3, a4⟩ := addAll_fold H vc.WorkDir.files.keys vc
  constructor
  · intro p n hn
    have hk : p ∈ vc.WorkDir.files.keys :=
      AList.mem_keys.mp (AList.lookup_isSome.mp (by rw [hn]; rfl))
    obtain ⟨b1, b2, b3⟩ := a3 p hk
    refine ⟨b1, b2, ?_⟩
    have e : (vc.AddAll H).FileHashes.lookup p = some ((hashFile H vc.WorkDir p).getD "") := b3
    rw [e, hashFile_eq H _ p n hn]
    cases n.readable <;> rfl
  · intro p hp
    exact a4 p (fun h => hp (AList.mem_keys.mpr h))

/-! ## Checkout on a reference that does not resolve: theorems -/

/-- C16: when the reference does not parse, `Checkout` returns the parse error,
and when it parses to an index outside `[0, len-1]` it returns "invalid commit
index"; in both cases no working tree is returned and the whole state,
working tree included, is as before.  This covers every reference on an empty
log and `~N` with `N ≥ len`. -/
theorem checkout_invalid_reference (vc : VC) :
    (∀ commitRef e, vc.parseCommitRef commitRef = .error e →
      vc.Checkout commitRef = some (.error e, vc)) ∧
    (∀ commitRef i, vc.parseCommitRef commitRef = .ok i → (i < 0 ∨ i ≥ vc.Commits.length) →
      vc.Checkout commitRef = some (.error .invalidIndex, vc)) ∧
    (vc.Commits = [] → ∀ commitRef, ∃ e, vc.Checkout commitRef = some (.error e, vc)) ∧
    (vc.Commits.length < 2 ^ 63 → ∀ N : Nat, vc.Commits.length ≤ N →
      ∃ e, vc.Checkout ("~" ++ toString N) = some (.error e, vc)) := by
  have h1 : ∀ commitRef e, vc.parseCommitRef commitRef = .error e →
      vc.Checkout commitRef = some (.error e, vc) := by
    intro commitRef e h
    unfold VC.Checkout
    rw [h]
  have h2 : ∀ commitRef i, vc.parseCommitRef commitRef = .ok i →
      (i < 0 ∨ i ≥ vc.Commits.length) →
      vc.Checkout commitRef = some (.error .invalidIndex, vc) := by
    intro commitRef i h hi
    unfold VC.Checkout
    rw [h]
    simp only [revertToCommit_out_of_range vc i hi]
  have h3 : ∀ commitRef, (∀ i, vc.parseCommitRef commitRef = .ok i →
      (i < 0 ∨ i ≥ vc.Commits.length)) → ∃ e, vc.Checkout commitRef = some (.error e, vc) := by
    intro commitRef h
    cases hp : vc.parseCommitRef commitRef with
    | error e => exact ⟨e, h1 _ _ hp⟩
    | ok i => exact ⟨_, h2 _ _ hp (h i hp)⟩
  refine ⟨h1, h2, ?_, ?_⟩
  · intro hnil commitRef
    apply h3
    intro i _
    rw [hnil]
    simp only [List.length_nil, Nat.cast_zero]
    omega
  · intro hlen N hN
    apply h3
    intro i hi
    left
    unfold VC.parseCommitRef at hi
    rw [data_tilde_toString] at hi
    simp only at hi
    have h2' : (2 : Int) ^ 63 = 9223372036854775808 := by norm_num
    have h3' : (2 : Nat) ^ 63 = 9223372036854775808 := by norm_num
    by_cases hN63 : N < 2 ^ 63
    · simp only [atoiChars_toDigits N hN63, Except.ok.injEq] at hi
      rw [wrapInt_eq ((vc.Commits.length : Int) - 1) (by omega) (by omega)] at hi
      rw [wrapInt_eq _ (by omega) (by omega)] at hi
      omega
    · simp only [atoiChars_toDigits_big N (by omega)] at hi
      cases hi

/-- C16, on a log of one commit over a tree with two files: `HEAD`, `~1` and `^`
are refused and the files stay; on an empty log `~0` is refused. -/
theorem checkout_invalid_reference_witness :
    (dirtyRepo.Checkout "HEAD").map (fun x => (errorOf x.1, x.2.WorkDir.files.keys)) =
      some (some .invalidRef, ["junk.txt", "a.txt"]) ∧
    (dirtyRepo.Checkout "~1").map (fun x => (errorOf x.1, x.2.WorkDir.files.keys)) =
      some (some .invalidIndex, ["junk.txt", "a.txt"]) ∧
    (dirtyRepo.Checkout "^").map (fun x => (errorOf x.1, x.2.WorkDir.files.keys)) =
      some (some .refOutOfRange, ["junk.txt", "a.txt"]) ∧
    (∃ e, (logOf 0).Checkout "~0" = some (.error e, logOf 0)) ∧
    (∃ e, dirtyRepo.Checkout ("~" ++ toString 1) = some (.error e, dirtyRepo)) :=
  ⟨by decide, by decide, by decide,
   (checkout_invalid_reference (logOf 0)).2.2.1 rfl "~0",
   (checkout_invalid_reference dirtyRepo).2.2.2 (by decide) 1 (by decide)⟩

/-! ## Commit log and commit content: theorems -/

/-- C11: for a path that is staged and readable when `Commit` is called, the
snapshot of the new commit records the content the file has in the working
tree at that call; so staging a path with `Add` or `AddAll`, changing the tree
and then committing records the content after the change. -/
theorem commit_records_content_at_commit (vc : VC) (message : String) (p c : String) :
    (vc.StagedFiles.lookup p = some true → vc.WorkDir.readFile p = some c →
      ∃ snap : GoMap String, (vc.Commit message).Commits = vc.Commits ++ [⟨message, snap⟩] ∧
        snap.lookup p = some c) ∧
    (∀ (H : String → String) (files : List String) (wd : WorkDir),
      p ∈ files → wd.readFile p = some c →
      ∃ snap : GoMap String,
        (((vc.Add H files).withTree wd).Commit message).Commits =
          vc.Commits ++ [⟨message, snap⟩] ∧
        snap.lookup p = some c) ∧
    (∀ (H : String → String) (wd : WorkDir),
      p ∈ vc.WorkDir.files → wd.readFile p = some c →
      ∃ snap : GoMap String,
        (((vc.AddAll H).withTree wd).Commit message).Commits =
          vc.Commits ++ [⟨message, snap⟩] ∧
        snap.lookup p = some c) := by
  have key : ∀ v : VC, v.StagedFiles.lookup p = some true → v.WorkDir.readFile p = some c →
      ∃ snap : GoMap String, (v.Commit message).Commits = v.Commits ++ [⟨message, snap⟩] ∧
        snap.lookup p = some c := by
    intro v hs hr
    obtain ⟨snap, h1, h2⟩ := commit_snapshot v message
    refine ⟨snap, h1, ?_⟩
    rw [h2 p, if_pos hs, hr]
  refine ⟨key vc, ?_, ?_⟩
  · intro H files wd hp hr
    obtain ⟨_, a2, a3, _⟩ := add_fold H files vc
    have hs : ((vc.Add H files).withTree wd).StagedFiles.lookup p = some true := (a3 p hp).1
    obtain ⟨snap, h1, h2⟩ := key ((vc.Add H files).withTree wd) hs hr
    refine ⟨snap, ?_, h2⟩
    rw [h1]
    have : ((vc.Add H files).withTree wd).Commits = vc.Commits := a2
    rw [this]
  · intro H wd hp hr
    obtain ⟨_, a2, a3, _⟩ := addAll_fold H vc.WorkDir.files.keys vc
    have hs : ((vc.AddAll H).withTree wd).StagedFiles.lookup p = some true :=
      (a3 p (AList.mem_keys.mp hp)).1
    obtain ⟨snap, h1, h2⟩ := key ((vc.AddAll H).withTree wd) hs hr
    refine ⟨snap, ?_, h2⟩
    rw [h1]
    have : ((vc.AddAll H).withTree wd).Commits = vc.Commits := a2
    rw [this]

/-- C11, on `a.txt` staged with content "v1" and changed to "v2" before the
commit: the snapshot holds "v2". -/
theorem commit_records_content_at_commit_witness :
    (Init toyHash (treeWith "v1")).map (fun vc =>
      (((vc.Add toyHash ["a.txt"]).withTree (treeWith "v2")).Commit "m").Commits.map
        (fun commit => commit.FileSnap.lookup "a.txt")) = some [some "v2"] ∧
    ∃ snap : GoMap String,
      ((((logOf 0).Add toyHash ["a.txt"]).withTree (treeWith "v2")).Commit "m").Commits =
        (logOf 0).Commits ++ [⟨"m", snap⟩] ∧
      snap.lookup "a.txt" = some "v2" :=
  ⟨by decide,
   (commit_records_content_at_commit (logOf 0) "m" "a.txt" "v2").2.1 toyHash ["a.txt"]
     (treeWith "v2") (by decide) (by decide)⟩

/-- C12: `Commit` appends exactly one entry, with the given message, at index
`len` and leaves every earlier entry at its index; `Init` starts with an empty
log; `AddAll`, `Add`, `Status` and `Checkout` leave `Commits` as it is; `Log`
reads the state without changing it, and its result is the reversal of the
messages in the order of `Commits`. -/
theorem commits_append_only (H : String → String) (vc : VC) :
    (∀ message, ∃ snap : GoMap String,
      (vc.Commit message).Commits = vc.Commits ++ [⟨message, snap⟩]) ∧
    (∀ message (i : Nat), i < vc.Commits.length →
      (vc.Commit message).Commits[i]? = vc.Commits[i]?) ∧
    (∀ message, (vc.Commit message).Commits.length = vc.Commits.length + 1 ∧
      ((vc.Commit message).Commits[vc.Commits.length]?).map (fun commit => commit.Message) =
        some message) ∧
    (∀ wd vc0, Init H wd = some vc0 → vc0.Commits = []) ∧
    (vc.AddAll H).Commits = vc.Commits ∧
    (∀ files, (vc.Add H files).Commits = vc.Commits) ∧
    (∀ r vc1, vc.Status H = some (r, vc1) → vc1.Commits = vc.Commits) ∧
    (∀ commitRef res vc1, vc.Checkout commitRef = some (res, vc1) → vc1.Commits = vc.Commits) ∧
    vc.Log.reverse = vc.Commits.map (fun commit => commit.Message) := by
  refine ⟨?_, ?_, ?_, ?_, ?_, ?_, ?_, ?_, ?_⟩
  · intro message
    obtain ⟨snap, h, _⟩ := commit_snapshot vc message
    exact ⟨snap, h⟩
  · intro message i hi
    obtain ⟨snap, h, _⟩ := commit_snapshot vc message
    rw [h, List.getElem?_append_left hi]
  · intro message
    obtain ⟨snap, h, _⟩ := commit_snapshot vc message
    rw [h]
    simp
  · exact fun wd vc0 h => init_commits H wd vc0 h
  · exact (addAll_fold H _ vc).2.1
  · exact fun files => (add_fold H files vc).2.1
  · intro r vc1 hs
    exact (statusWalk_some H _ _ _ _ _ hs).2.2.2.1
  · intro commitRef res vc1 hc
    exact (checkout_frame vc commitRef res vc1 hc).2.2.2
  · rw [log_eq_reverse, List.reverse_reverse]


/-! ## Frame and flags of `Status`: theorems -/

/-- C14: when `Status` returns, `StagedFiles`, `FileHashes`, `Commits` and the
working tree are exactly as before the call; only `ModifiedFiles` may differ. -/
theorem status_frame (H : String → String) (vc : VC) (r : StatusResult) (vc1 : VC)
    (hs : vc.Status H = some (r, vc1)) :
    vc1.StagedFiles = vc.StagedFiles ∧ vc1.FileHashes = vc.FileHashes ∧
    vc1.Commits = vc.Commits ∧ vc1.WorkDir = vc.WorkDir := by
  obtain ⟨e1, e2, e3, e4, _, _, _⟩ := statusWalk_some H _ _ _ _ _ hs
  exact ⟨e2, e3, e4, e1⟩

/-- C14, on a tree with an unchanged, an edited and a never-hashed file: only the
modified flags of the last two appear. -/
theorem status_frame_witness :
    ∃ (r : StatusResult) (vc1 : VC), editedRepo.Status toyHash = some (r, vc1) ∧
      vc1.StagedFiles = editedRepo.StagedFiles ∧ vc1.FileHashes = editedRepo.FileHashes ∧
      vc1.Commits = editedRepo.Commits ∧ vc1.WorkDir = editedRepo.WorkDir ∧
      vc1.ModifiedFiles.keys = ["b.txt", "c.txt"] := by
  have h : (editedRepo.Status toyHash).isSome := by decide
  obtain ⟨⟨r, vc1⟩, hs⟩ := Option.isSome_iff_exists.mp h
  obtain ⟨a, b, c, d⟩ := status_frame toyHash editedRepo r vc1 hs
  refine ⟨r, vc1, hs, a, b, c, d, ?_⟩
  have hk : (editedRepo.Status toyHash).map (fun x => x.2.ModifiedFiles.keys) =
      some ["b.txt", "c.txt"] := by decide
  rw [hs] at hk
  simpa using hk

/-- C15, amended: when `Status` returns, the modified flag of a file in the tree
is true if the hash of its content differs from `FileHashes[path]`; if it does
not differ the flag is what it was before the call, and so is the flag of every
path that is not in the tree. -/
theorem status_sets_modified_flag (H : String → String) (vc : VC) (r : StatusResult) (vc1 : VC)
    (hs : vc.Status H = some (r, vc1)) (p : String) :
    (∀ n, vc.WorkDir.files.lookup p = some n →
      (vc.FileHashes.lookup p).getD "" ≠ H n.content →
      vc1.ModifiedFiles.lookup p = some true) ∧
    (∀ n, vc.WorkDir.files.lookup p = some n →
      (vc.FileHashes.lookup p).getD "" = H n.content →
      vc1.ModifiedFiles.lookup p = vc.ModifiedFiles.lookup p) ∧
    (p ∉ vc.WorkDir.files → vc1.ModifiedFiles.lookup p = vc.ModifiedFiles.lookup p) := by
  have hall := (status_isSome_iff H vc).mp (by rw [hs]; rfl)
  have hm := statusWalk_modifiedFiles H _ _ _ _ _ hs p
  simp only at hm
  refine ⟨?_, ?_, ?_⟩
  · intro n hn hne
    have hk : p ∈ vc.WorkDir.files.keys :=
      AList.mem_keys.mp (AList.lookup_isSome.mp (by rw [hn]; rfl))
    rw [hm, if_pos]
    refine ⟨hk, ?_⟩
    simp [modifiedNow, hashFile_eq H _ p n hn, hall p n hn, hne]
  · intro n hn heq
    rw [hm, if_neg]
    rintro ⟨_, hmod⟩
    simp [modifiedNow, hashFile_eq H _ p n hn, hall p n hn, heq] at hmod
  · intro hp
    rw [hm, if_neg]
    rintro ⟨hk, _⟩
    exact hp (AList.mem_keys.mpr hk)


/-- C15 as stated fails: `a.txt` is hashed with content "v1", changed to "v2"
and seen by `Status`, which flags it; after the content is restored to "v1" a
second `Status` reports no modified file, yet the flag is still true. -/
theorem status_keeps_stale_modified_flag :
    ((Init toyHash (treeWith "v1")).bind
        (fun vc => (vc.withTree (treeWith "v2")).Status toyHash)).map
      (fun x => (x.1.ModifiedFiles, x.2.ModifiedFiles.lookup "a.txt")) =
      some (["a.txt"], some true) ∧
    (((Init toyHash (treeWith "v1")).bind
        (fun vc => (vc.withTree (treeWith "v2")).Status toyHash)).bind
        (fun x => (x.2.withTree (treeWith "v1")).Status toyHash)).map
      (fun y => (y.1.ModifiedFiles, y.2.ModifiedFiles.lookup "a.txt",
        y.2.FileHashes.lookup "a.txt", y.2.WorkDir.readFile "a.txt")) =
      some ([], some true, some (toyHash "v1"), some "v1") := by
  decide

/-- C15, amended, on a tree with an unchanged, an edited and a never-hashed file. -/
theorem status_sets_modified_flag_witness :
    ∃ (r : StatusResult) (vc1 : VC), editedRepo.Status toyHash = some (r, vc1) ∧
      vc1.ModifiedFiles.lookup "b.txt" = some true ∧
      vc1.ModifiedFiles.lookup "a.txt" = editedRepo.ModifiedFiles.lookup "a.txt" := by
  have h : (editedRepo.Status toyHash).isSome := by decide
  obtain ⟨⟨r, vc1⟩, hs⟩ := Option.isSome_iff_exists.mp h
  obtain ⟨a, _, _⟩ := status_sets_modified_flag toyHash editedRepo r vc1 hs "b.txt"
  obtain ⟨_, b, _⟩ := status_sets_modified_flag toyHash editedRepo r vc1 hs "a.txt"
  exact ⟨r, vc1, hs, a ⟨"new", true⟩ (by decide) (by decide),
    b ⟨"hello", true⟩ (by decide) (by decide)⟩

/-! ## Entries of the maps in reachable states: theorems -/

/-- C13 as stated fails: after `Init` on an empty tree the file `new.txt` is
created; `Status` walks the tree, sees the file and reports it as modified, but
the file has no entry in `FileHashes` and none in `StagedFiles`. -/
theorem status_registers_no_entry :
    ((Init toyHash emptyTree).bind (fun vc =>
        (emptyTree.CreateFile "new.txt").bind (fun wd =>
          (vc.withTree wd).Status toyHash))).map
      (fun x => (x.1.ModifiedFiles, x.2.FileHashes.lookup "new.txt",
        x.2.StagedFiles.lookup "new.txt", x.2.WorkDir.files.keys)) =
      some (["new.txt"], none, none, ["new.txt"]) := by
  decide

/-- C13, amended: in every state reached from `Init` by `AddAll`, `Add`,
`Commit`, `Status` and `Checkout` interleaved with changes of the working tree,
every path that `Init` or an `AddAll` found in the tree and every name that was
handed to `Add` has an entry in both `FileHashes` and `StagedFiles`. -/
theorem reach_seen_has_entries (H : String → String) (vc : VC) (seen : List String)
    (h : Reach H vc seen) : ∀ p ∈ seen, p ∈ vc.FileHashes ∧ p ∈ vc.StagedFiles := by
  induction h with
  | init wd vc h => exact init_keys H wd vc h
  | addAll vc seen _ ih =>
    intro p hp
    obtain ⟨_, _, a3, a4⟩ := addAll_fold H vc.WorkDir.files.keys vc
    by_cases hk : p ∈ vc.WorkDir.files.keys
    · obtain ⟨b1, _, b3⟩ := a3 p hk
      exact ⟨mem_of_lookup_eq_some _ p _ b3, mem_of_lookup_eq_some _ p _ b1⟩
    · have hs : p ∈ seen := by
        rcases List.mem_append.mp hp with h1 | h1
        · exact h1
        · exact absurd h1 hk
      obtain ⟨b1, _, b3⟩ := a4 p hk
      exact ⟨mem_of_lookup_eq _ _ p b3 (ih p hs).1, mem_of_lookup_eq _ _ p b1 (ih p hs).2⟩
  | add vc seen files _ ih =>
    intro p hp
    obtain ⟨_, _, a3, a4⟩ := add_fold H files vc
    by_cases hk : p ∈ files
    · obtain ⟨b1, _, b3⟩ := a3 p hk
      exact ⟨mem_of_lookup_eq_some _ p _ b3, mem_of_lookup_eq_some _ p _ b1⟩
    · have hs : p ∈ seen := by
        rcases List.mem_append.mp hp with h1 | h1
        · exact h1
        · exact absurd h1 hk
      obtain ⟨b1, _, b3⟩ := a4 p hk
      exact ⟨mem_of_lookup_eq _ _ p b3 (ih p hs).1, mem_of_lookup_eq _ _ p b1 (ih p hs).2⟩
  | commit vc seen message _ ih =>
    intro p hp
    obtain ⟨c1, c2⟩ := commit_keys vc message p
    exact ⟨by rw [c2]; exact (ih p hp).1, c1 (ih p hp).2⟩
  | status vc seen r vc1 _ hs ih =>
    intro p hp
    obtain ⟨_, e2, e3, _⟩ := statusWalk_some H _ _ _ _ _ hs
    rw [e2, e3]
    exact ih p hp
  | checkout vc seen commitRef res vc1 _ hc ih =>
    intro p hp
    obtain ⟨e1, _, e3, _⟩ := checkout_frame vc commitRef res vc1 hc
    rw [e1, e3]
    exact ih p hp
  | treeChange vc seen wd _ ih =>
    intro p hp
    exact ih p hp

/-- C13, amended, on a tree with `a.txt`: after `Init`, a change of the tree,
`Add("b.txt")` and `Commit`, both `a.txt` and `b.txt` have their entries. -/
theorem reach_seen_has_entries_witness :
    ∃ vc : VC, Init toyHash (treeWith "v1") = some vc ∧
      ∀ p ∈ ["a.txt"] ++ ["b.txt"],
        p ∈ (((vc.withTree emptyTree).Add toyHash ["b.txt"]).Commit "m").FileHashes ∧
        p ∈ (((vc.withTree emptyTree).Add toyHash ["b.txt"]).Commit "m").StagedFiles := by
  have h : (Init toyHash (treeWith "v1")).isSome := by decide
  obtain ⟨vc, hv⟩ := Option.isSome_iff_exists.mp h
  exact ⟨vc, hv, reach_seen_has_entries toyHash _ _
    (Reach.commit _ _ "m" (Reach.add _ _ ["b.txt"]
      (Reach.treeChange _ _ emptyTree (Reach.init (treeWith "v1") vc hv))))⟩

/-! ## Add: theorems -/

/-- C18: after `Add(files)` every named path is staged and flagged not modified;
its hash-cache entry is the hash of its content when it is a file of the tree
that can be read, and the empty string when its hash cannot be computed (a file
of the tree that cannot be read, or a name that is neither in the tree nor can
be opened as given); a name outside the tree that can be opened as given gets
the hash of what was opened; and the entries of the three maps for every path
that is not named are as before. -/
theorem add_effect (H : String → String) (vc : VC) (files : List String) :
    (∀ p ∈ files,
      (vc.Add H files).StagedFiles.lookup p = some true ∧
      (vc.Add H files).ModifiedFiles.lookup p = some false ∧
      (∀ n, vc.WorkDir.files.lookup p = some n → n.readable = true →
        (vc.Add H files).FileHashes.lookup p = some (H n.content)) ∧
      (∀ n, vc.WorkDir.files.lookup p = some n → n.readable = false →
        (vc.Add H files).FileHashes.lookup p = some "") ∧
      (p ∉ vc.WorkDir.files → vc.WorkDir.cwdRead p = none →
        (vc.Add H files).FileHashes.lookup p = some "") ∧
      (∀ c, p ∉ vc.WorkDir.files → vc.WorkDir.cwdRead p = some c →
        (vc.Add H files).FileHashes.lookup p = some (H c))) ∧
    (∀ p, p ∉ files →
      (vc.Add H files).StagedFiles.lookup p = vc.StagedFiles.lookup p ∧
      (vc.Add H files).ModifiedFiles.lookup p = vc.ModifiedFiles.lookup p ∧
      (vc.Add H files).FileHashes.lookup p = vc.FileHashes.lookup p) := by
  obtain ⟨_, _, a3, a4⟩ := add_fold H files vc
  refine ⟨?_, a4⟩
  intro p hp
  obtain ⟨b1, b2, b3⟩ := a3 p hp
  have e : (vc.Add H files).FileHashes.lookup p = some (addedHash H vc.WorkDir p) := b3
  refine ⟨b1, b2, ?_, ?_, ?_, ?_⟩
  · intro n hn hr
    have hk : p ∈ vc.WorkDir.files.keys := AList.mem_keys.mp (mem_of_lookup_eq_some _ p n hn)
    rw [e]
    simp [addedHash, hk, hashFile_eq H _ p n hn, hr]
  · intro n hn hr
    have hk : p ∈ vc.WorkDir.files.keys := AList.mem_keys.mp (mem_of_lookup_eq_some _ p n hn)
    rw [e]
    simp [addedHash, hk, hashFile_eq H _ p n hn, hr]
  · intro hnp hc
    have hk : p ∉ vc.WorkDir.files.keys := fun h => hnp (AList.mem_keys.mpr h)
    rw [e]
    simp [addedHash, hk, hashFileCwd, hc]
  · intro c hnp hc
    have hk : p ∉ vc.WorkDir.files.keys := fun h => hnp (AList.mem_keys.mpr h)
    rw [e]
    simp [addedHash, hk, hashFileCwd, hc]

/-- C18, on a tree with the readable files `a.txt`, `b.txt` and `c.txt`:
`Add("b.txt", "ghost")` stages both names, records the hash of `b.txt` and the
empty string for `ghost`, and leaves the entries of `a.txt` alone. -/
theorem add_effect_witness :
    ((editedRepo.Add toyHash ["b.txt", "ghost"]).StagedFiles.lookup "b.txt",
     (editedRepo.Add toyHash ["b.txt", "ghost"]).FileHashes.lookup "b.txt",
     (editedRepo.Add toyHash ["b.txt", "ghost"]).StagedFiles.lookup "ghost",
     (editedRepo.Add toyHash ["b.txt", "ghost"]).FileHashes.lookup "ghost") =
      (some true, some (toyHash "new"), some true, some "") ∧
    (editedRepo.Add toyHash ["b.txt", "ghost"]).FileHashes.lookup "a.txt" =
      editedRepo.FileHashes.lookup "a.txt" :=
  ⟨by decide,
   ((add_effect toyHash editedRepo ["b.txt", "ghost"]).2 "a.txt" (by decide)).2.2⟩

/-! ## `^` against `~`, and `Log`: theorems -/

/-- C19: on a log of one commit the reference `^` (K = 1) fails with the
out-of-range error while `~1` is resolved without error to the index -1. -/
theorem carets_differ_from_tilde_beyond_log :
    (logOf 1).parseCommitRef (String.mk (List.replicate 1 '^')) = .error .refOutOfRange ∧
    (logOf 1).parseCommitRef ("~" ++ toString 1) = .ok (-1) := by
  decide

/-- C20: `Log` returns as many messages as there are commits, the one at
position `i` being the message of `Commits[len-1-i]`; it returns the empty list
on an empty log; and on a non-empty log its first element is the message of
the commit that `~0` resolves to. -/
theorem log_newest_first (vc : VC) :
    vc.Log.length = vc.Commits.length ∧
    (∀ i : Nat, i < vc.Commits.length →
      vc.Log[i]? =
        (vc.Commits[vc.Commits.length - 1 - i]?).map (fun commit => commit.Message)) ∧
    (vc.Commits = [] → vc.Log = []) ∧
    (1 ≤ vc.Commits.length → vc.Commits.length < 2 ^ 63 →
      ∃ j : Int, vc.parseCommitRef "~0" = .ok j ∧ 0 ≤ j ∧
        vc.Log[0]? = (vc.Commits[j.toNat]?).map (fun commit => commit.Message)) := by
  have hlog := log_eq_reverse vc
  have hget : ∀ i : Nat, i < vc.Commits.length →
      vc.Log[i]? =
        (vc.Commits[vc.Commits.length - 1 - i]?).map (fun commit => commit.Message) := by
    intro i hi
    rw [hlog, List.getElem?_reverse (by simpa using hi), List.getElem?_map, List.length_map]
  refine ⟨by rw [hlog]; simp, hget, ?_, ?_⟩
  · intro hnil
    rw [hlog, hnil]
    rfl
  · intro h1 hlen
    have hp := parseCommitRef_tilde_of_lt vc hlen 0 (by omega)
    refine ⟨(vc.Commits.length : Int) - 1, by simpa using hp, by omega, ?_⟩
    rw [hget 0 (by omega)]
    congr 2
    omega

/-- C20, on a log of the commits "first", "second", "third". -/
theorem log_newest_first_witness :
    (threeCommits).Log = ["third", "second", "first"] ∧
    ∃ j : Int, threeCommits.parseCommitRef "~0" = .ok j ∧ 0 ≤ j ∧
      threeCommits.Log[0]? = (threeCommits.Commits[j.toNat]?).map (fun commit => commit.Message) :=
  ⟨by decide, (log_newest_first threeCommits).2.2.2 (by decide) (by decide)⟩

/-! ## The end-to-end scenario: theorems -/

/-- C17: from `Init` on an empty tree, `AddAll` and `Commit("first")` make `Log`
return `["first"]`; after `a.txt` is created with content "hello", staged and
committed as "second", `Checkout("~0")` succeeds and returns a tree holding
exactly `a.txt` = "hello", and the following `Checkout("~1")` succeeds and
returns an empty tree. -/
theorem scenario_end_to_end :
    (scenarioFirst toyHash).map (fun vc => vc.Log) = some ["first"] ∧
    (scenarioSecond toyHash).map (fun vc => vc.Log) = some ["second", "first"] ∧
    ((scenarioSecond toyHash).bind (fun vc => vc.Checkout "~0")).map returnedFiles =
      some (some [("a.txt", "hello")]) ∧
    (((scenarioSecond toyHash).bind (fun vc => vc.Checkout "~0")).bind
        (fun x => x.2.Checkout "~1")).map returnedFiles = some (some []) := by
  decide

end GitSim
